import Mathlib

/-!
# Velocity trading core: shallow embedding and verification

This file embeds the core data structures and operations of the Velocity
trading simulator (`src/market_data.cpp`, `src/order_manager.cpp`,
`include/market_data.h`, `include/order_manager.h`) into Lean 4 and proves
or refutes the frozen specification claims about them.

Modelling conventions:
* C++ `double` prices and PnL are modelled as `ℚ`.  Every claim settled here
  depends only on ordered-field comparisons and exact arithmetic on small
  literals, where `double` and `ℚ` agree.
* `uint32_t` / `uint64_t` quantities, ids and counters are modelled as `Nat`
  (`int32_t` position quantities as `ℤ`); no claim exercises wrap-around.
* `std::map` is modelled as a sorted association list (`List (ℚ × PriceLevel)`),
  bids descending, asks ascending, mirroring the comparators
  `std::greater<double>` and `std::less<double>`.
* Timestamps, threads and condition variables are dropped.  Mutexes are
  dropped wherever a function acquires a free lock and releases it on return,
  which makes the sequential semantics faithful — with one exception:
  `OrderBook::modify_order` calls `add_order` while already holding the
  non-recursive `book_mutex_`, re-acquiring a held `std::mutex`, so that call
  never returns.  Its lock acquisitions are therefore modelled explicitly
  (`lockGuard`), the function returns `Option OrderBook`, and `none` models
  the non-returning call.  Callbacks are modelled by recording the emitted
  `Execution` values in the engine state.
-/

namespace Velocity

/-- `enum class OrderSide` from `market_data.h`. -/
inductive OrderSide where
  | BUY
  | SELL
deriving DecidableEq, Repr, Inhabited

/-- `enum class OrderType` from `market_data.h`. -/
inductive OrderType where
  | MARKET
  | LIMIT
  | STOP
  | STOP_LIMIT
deriving DecidableEq, Repr, Inhabited

/-- `enum class OrderStatus` from `market_data.h`. -/
inductive OrderStatus where
  | PENDING
  | PARTIAL
  | FILLED
  | CANCELLED
  | REJECTED
deriving DecidableEq, Repr, Inhabited

/-- `struct Order` from `market_data.h` (timestamp dropped).  The C++ default
constructor zero-initialises `id`, `price`, `quantity`, `filled_quantity` and
sets `status = PENDING`; `symbol`, `trader_id` default to the empty string;
`side` and `type` are left uninitialised in the source and default to the
first enumerator here. -/
structure Order where
  id : Nat := 0
  symbol : String := ""
  side : OrderSide := OrderSide.BUY
  type : OrderType := OrderType.MARKET
  price : ℚ := 0
  quantity : Nat := 0
  filled_quantity : Nat := 0
  status : OrderStatus := OrderStatus.PENDING
  trader_id : String := ""
deriving DecidableEq, Repr, Inhabited

/-- `struct PriceLevel` from `market_data.h`: `PriceLevel(double p = 0.0)`
starts with `total_quantity = 0` and no orders. -/
structure PriceLevel where
  price : ℚ := 0
  total_quantity : Nat := 0
  orders : List Order := []
deriving DecidableEq, Repr, Inhabited

/-- Side of a book: the key-ordered contents of `std::map<double, PriceLevel>`.
Bids are kept descending, asks ascending, matching the map comparators. -/
abbrev Levels := List (ℚ × PriceLevel)

/-- `class OrderBook` state from `market_data.h` (mutex and price callback
dropped; the callback makes no state change inside the book). -/
structure OrderBook where
  symbol : String := ""
  bids : Levels := []
  asks : Levels := []
  last_price : ℚ := 0
  best_bid : ℚ := 0
  best_ask : ℚ := 0
  sequence_number : Nat := 0
deriving DecidableEq, Repr, Inhabited

/-- `OrderBook(const std::string&)` constructor. -/
def OrderBook.init (s : String) : OrderBook := { symbol := s }

/-- `bids_[price]` / `asks_[price]` followed by an update of the found (or
default-constructed) level: sorted-association-list upsert.  `ltb a b = true`
means `a` sorts strictly before `b` (for bids `b < a`, for asks `a < b`). -/
def upsertLevel (ltb : ℚ → ℚ → Bool) (k : ℚ) (f : PriceLevel → PriceLevel) :
    Levels → Levels
  | [] => [(k, f {})]
  | (k', v) :: rest =>
      if k = k' then (k', f v) :: rest
      else if ltb k k' then (k, f {}) :: (k', v) :: rest
      else (k', v) :: upsertLevel ltb k f rest

/-- Bid-side comparator `std::greater<double>`. -/
def bidLT (a b : ℚ) : Bool := b < a

/-- Ask-side comparator `std::less<double>`. -/
def askLT (a b : ℚ) : Bool := a < b

/-- `std::find_if` + `erase` on a level's order list: remove the first order
with the given id, returning it together with the remaining list. -/
def removeOrder (oid : Nat) : List Order → Option (Order × List Order)
  | [] => none
  | o :: os =>
      if o.id = oid then some (o, os)
      else (removeOrder oid os).map (fun p => (p.1, o :: p.2))

/-- The level-scan shared by `OrderBook::cancel_order` and
`OrderBook::modify_order`: walk the levels in map order, find the first level
containing an order with the given id, subtract that order's `quantity` from
`total_quantity`, erase the order, and erase the level if its order list
empties.  Returns the removed order and the updated level list, or `none`. -/
def removeFromLevels (oid : Nat) : Levels → Option (Order × Levels)
  | [] => none
  | (k, L) :: rest =>
      match removeOrder oid L.orders with
      | some (o, os) =>
          let L' : PriceLevel :=
            { L with total_quantity := L.total_quantity - o.quantity, orders := os }
          some (o, if L'.orders.isEmpty then rest else (k, L') :: rest)
      | none => (removeFromLevels oid rest).map (fun p => (p.1, (k, L) :: p.2))

/-- Head key of a side, `0` when the side is empty. -/
def headKey : Levels → ℚ
  | [] => 0
  | (k, _) :: _ => k

/-- `OrderBook::update_best_prices`. -/
def OrderBook.update_best_prices (b : OrderBook) : OrderBook :=
  let bb := headKey b.bids
  let ba := headKey b.asks
  { b with
    best_bid := bb
    best_ask := ba
    last_price := if 0 < bb ∧ 0 < ba then (bb + ba) / 2 else b.last_price }

/-- `OrderBook::add_order`: stamp `id = ++sequence_number_`, push the order to
the tail of the level at `order.price` on `order.side` (creating it if
absent), add `order.quantity` to the level's `total_quantity`, refresh the
cached best prices.  Note the source adds the full `order.quantity`, not the
remaining `quantity - filled_quantity`. -/
def pushOrder (p : ℚ) (q : Nat) (a : Order) : PriceLevel → PriceLevel := fun L =>
  { L with
    price := p
    orders := L.orders ++ [a]
    total_quantity := L.total_quantity + q }

def OrderBook.add_order (b : OrderBook) (order : Order) : OrderBook :=
  let new_order := { order with id := b.sequence_number + 1 }
  let b' :=
    if order.side = OrderSide.BUY then
      { b with sequence_number := b.sequence_number + 1,
               bids := upsertLevel bidLT order.price
                 (pushOrder order.price order.quantity new_order) b.bids }
    else
      { b with sequence_number := b.sequence_number + 1,
               asks := upsertLevel askLT order.price
                 (pushOrder order.price order.quantity new_order) b.asks }
  b'.update_best_prices

/-- `OrderBook::cancel_order`: search bids then asks for the first resting
order with the given id; remove it and refresh caches; no-op when absent. -/
def OrderBook.cancel_order (b : OrderBook) (oid : Nat) : OrderBook :=
  match removeFromLevels oid b.bids with
  | some (_, bids') => OrderBook.update_best_prices { b with bids := bids' }
  | none =>
      match removeFromLevels oid b.asks with
      | some (_, asks') => OrderBook.update_best_prices { b with asks := asks' }
      | none => b

/-- Acquiring the non-recursive `std::mutex book_mutex_` via
`std::lock_guard`: `held` is whether this thread already holds the lock at
the acquisition point.  Re-locking a held non-recursive mutex never returns
(undefined behavior that deadlocks in practice), modelled as `none`. -/
def lockGuard : Bool → Option Unit
  | true => none
  | false => some ()

/-- `OrderBook::modify_order`, with its `book_mutex_` acquisitions modelled
explicitly.  The function locks the (free) `book_mutex_`, scans bids then
asks removing the first order with the given id (same scan as cancel,
without refreshing caches), and in the found case calls `add_order` with the
new price and quantity — whose first statement locks the same non-recursive
`book_mutex_` again, still held by this frame, so the call never returns
(`none`).  Only the not-found case completes, leaving the book unchanged. -/
def OrderBook.modify_order (b : OrderBook) (oid : Nat) (new_price : ℚ)
    (new_quantity : Nat) : Option OrderBook :=
  (lockGuard false).bind fun _ =>
    match removeFromLevels oid b.bids with
    | some (o, bids') =>
        (lockGuard true).map fun _ =>
          OrderBook.add_order { b with bids := bids' }
            { o with price := new_price, quantity := new_quantity }
    | none =>
        match removeFromLevels oid b.asks with
        | some (o, asks') =>
            (lockGuard true).map fun _ =>
              OrderBook.add_order { b with asks := asks' }
                { o with price := new_price, quantity := new_quantity }
        | none => some b

/-- The remove-then-add computation the body of `OrderBook::modify_order`
performs under the lock, as it would complete were `book_mutex_` recursive:
remove the order (same scan as cancel, without refreshing caches), then
`add_order` it back with the new price and quantity; no-op when the id is
absent.  The real call never returns in the found case (see
`OrderBook.modify_order`); this hypothetical completion is used to
over-approximate the set of reachable book states, which only strengthens
universally-quantified invariants proved over it. -/
def OrderBook.modify_order_unlocked (b : OrderBook) (oid : Nat) (new_price : ℚ)
    (new_quantity : Nat) : OrderBook :=
  match removeFromLevels oid b.bids with
  | some (o, bids') =>
      OrderBook.add_order { b with bids := bids' }
        { o with price := new_price, quantity := new_quantity }
  | none =>
      match removeFromLevels oid b.asks with
      | some (o, asks') =>
          OrderBook.add_order { b with asks := asks' }
            { o with price := new_price, quantity := new_quantity }
      | none => b

/-- The resting order `OrderBook::cancel_order` / `modify_order` would find
for this id: first match scanning bids in map order, then asks. -/
def OrderBook.findResting (b : OrderBook) (oid : Nat) : Option Order :=
  match removeFromLevels oid b.bids with
  | some (o, _) => some o
  | none =>
      match removeFromLevels oid b.asks with
      | some (o, _) => some o
      | none => none

/-- `OrderBook::get_bid_levels`. -/
def OrderBook.get_bid_levels (b : OrderBook) (depth : Nat) : List PriceLevel :=
  (b.bids.take depth).map Prod.snd

/-- `OrderBook::get_ask_levels`. -/
def OrderBook.get_ask_levels (b : OrderBook) (depth : Nat) : List PriceLevel :=
  (b.asks.take depth).map Prod.snd

/-- The cached best price of the side a market order consumes:
`process_market_order` reads `get_best_ask()` for a BUY and `get_best_bid()`
for a SELL. -/
def oppositeBest (b : OrderBook) : OrderSide → ℚ
  | OrderSide.BUY => b.best_ask
  | OrderSide.SELL => b.best_bid

/-- The level list of the side a market order consumes:
`process_market_order` reads `get_ask_levels(1)` for a BUY and
`get_bid_levels(1)` for a SELL. -/
def oppositeLevels (b : OrderBook) : OrderSide → Levels
  | OrderSide.BUY => b.asks
  | OrderSide.SELL => b.bids

/-- `OrderBook::clear_book`. -/
def OrderBook.clear_book (b : OrderBook) : OrderBook :=
  OrderBook.update_best_prices { b with bids := [], asks := [] }

/-- `OrderBook::set_last_price`. -/
def OrderBook.set_last_price (b : OrderBook) (p : ℚ) : OrderBook :=
  OrderBook.update_best_prices { b with last_price := p }

/-- `OrderBook::add_limit_order`: push a synthetic order (id 0, trader "SIM")
onto the given side without stamping a sequence number. -/
def OrderBook.add_limit_order (b : OrderBook) (price : ℚ) (quantity : Nat)
    (side : OrderSide) : OrderBook :=
  let synthetic : Order :=
    { id := 0, symbol := b.symbol, side := side, type := OrderType.LIMIT,
      price := price, quantity := quantity, filled_quantity := 0,
      status := OrderStatus.PENDING, trader_id := "SIM" }
  let b' :=
    if side = OrderSide.BUY then
      { b with bids := upsertLevel bidLT price (pushOrder price quantity synthetic) b.bids }
    else
      { b with asks := upsertLevel askLT price (pushOrder price quantity synthetic) b.asks }
  b'.update_best_prices

/-- `struct Execution` from `order_manager.h` (timestamp dropped).  The C++
default constructor zero-initialises `order_id`, `execution_id`, `price`,
`quantity`; `symbol`/`trader_id` default to the empty string; `side` is left
uninitialised in the source and defaults to `BUY` here (no claim settled in
this file depends on the value of an unset `side`). -/
structure Execution where
  order_id : Nat := 0
  execution_id : Nat := 0
  symbol : String := ""
  side : OrderSide := OrderSide.BUY
  price : ℚ := 0
  quantity : Nat := 0
  trader_id : String := ""
deriving DecidableEq, Repr, Inhabited

/-- `struct Position` from `order_manager.h`. -/
structure Position where
  symbol : String := ""
  quantity : ℤ := 0
  avg_price : ℚ := 0
  unrealized_pnl : ℚ := 0
  realized_pnl : ℚ := 0
deriving DecidableEq, Repr, Inhabited

/-- `struct RiskLimits` from `order_manager.h`, with its constructor
defaults. -/
structure RiskLimits where
  max_position_value : ℚ := 1000000
  max_daily_loss : ℚ := 50000
  max_drawdown : ℚ := 1/10
  max_order_size : Nat := 10000
  max_leverage : ℚ := 2
deriving DecidableEq, Repr, Inhabited

/-- `class MatchingEngine` state from `order_manager.h` (mutex, condition
variable, worker thread and `total_volume_` statistic dropped).  The
`executions` field records the `Execution` values delivered through the
execution callback, oldest first. -/
structure MatchingEngine where
  order_books : List (String × OrderBook) := []
  order_queue : List Order := []
  total_orders_processed : Nat := 0
  total_executions : Nat := 0
  order_id_counter : Nat := 0
  execution_id_counter : Nat := 0
  executions : List Execution := []
deriving DecidableEq, Repr, Inhabited

namespace MatchingEngine

/-- Look up the book for a symbol, if present. -/
def lookupBook (e : MatchingEngine) (s : String) : Option OrderBook :=
  (e.order_books.find? (fun p => p.1 = s)).map Prod.snd

/-- Store back the (updated) book for a symbol present in the map. -/
def setBook (e : MatchingEngine) (s : String) (b : OrderBook) : MatchingEngine :=
  { e with order_books := e.order_books.map (fun p => if p.1 = s then (s, b) else p) }

/-- `order_books_[symbol]` on the non-const path default-constructs a missing
entry (`OrderBook()`, whose symbol is empty): ensure the key exists. -/
def ensureBook (e : MatchingEngine) (s : String) : MatchingEngine :=
  if (e.order_books.any (fun p => p.1 = s)) then e
  else { e with order_books := e.order_books ++ [(s, {})] }

/-- The book for a symbol after `ensureBook`. -/
def getBook (e : MatchingEngine) (s : String) : OrderBook :=
  ((e.order_books.find? (fun p => p.1 = s)).map Prod.snd).getD {}

/-- `MatchingEngine::add_symbol`: `emplace` does nothing when the key exists,
otherwise inserts `OrderBook(symbol)`. -/
def add_symbol (e : MatchingEngine) (s : String) : MatchingEngine :=
  if (e.order_books.any (fun p => p.1 = s)) then e
  else { e with order_books := e.order_books ++ [(s, OrderBook.init s)] }

/-- `MatchingEngine::submit_order`: stamp a fresh id, enqueue, return the id. -/
def submit_order (e : MatchingEngine) (order : Order) : Nat × MatchingEngine :=
  let id := e.order_id_counter + 1
  (id, { e with
           order_id_counter := id
           order_queue := e.order_queue ++ [{ order with id := id }]
           total_orders_processed := e.total_orders_processed + 1 })

/-- `MatchingEngine::cancel_order`: drain the submission queue, dropping every
entry whose id and trader id both match; report whether any matched.  The
source never searches the order books. -/
def cancel_order (e : MatchingEngine) (oid : Nat) (tid : String) :
    Bool × MatchingEngine :=
  let isMatch : Order → Bool := fun o => o.id = oid ∧ o.trader_id = tid
  (e.order_queue.any isMatch,
   { e with order_queue := e.order_queue.filter (fun o => ¬ isMatch o) })

/-- `MatchingEngine::modify_order`: rewrite price/quantity of every queued
entry whose id and trader id both match; report whether any matched. -/
def modify_order (e : MatchingEngine) (oid : Nat) (new_price : ℚ)
    (new_quantity : Nat) (tid : String) : Bool × MatchingEngine :=
  let isMatch : Order → Bool := fun o => o.id = oid ∧ o.trader_id = tid
  let queue' := e.order_queue.map fun o =>
    if isMatch o then { o with price := new_price, quantity := new_quantity } else o
  (e.order_queue.any isMatch, { e with order_queue := queue' })

/-- `MatchingEngine::process_market_order`: look only at the single best
level of the opposite side; execute `min(order.quantity, level.total_quantity)`
at the cached best price; remove only the head order of that level; the
remainder of the market order is dropped.  The source does not walk further
levels. -/
def process_market_order (e : MatchingEngine) (order : Order) : MatchingEngine :=
  let e := e.ensureBook order.symbol
  let b := e.getBook order.symbol
  match order.side with
  | OrderSide.BUY =>
      if 0 < b.best_ask then
        match b.asks with
        | [] => e
        | (_, L) :: _ =>
            let match_quantity := min order.quantity L.total_quantity
            if 0 < match_quantity then
              let exec : Execution :=
                { execution_id := e.execution_id_counter + 1
                  symbol := order.symbol
                  side := order.side
                  price := b.best_ask
                  quantity := match_quantity
                  trader_id := order.trader_id
                  order_id := order.id }
              let b' := if L.orders.isEmpty then b else b.cancel_order L.orders.headI.id
              let e := e.setBook order.symbol b'
              { e with
                  execution_id_counter := e.execution_id_counter + 1
                  total_executions := e.total_executions + 1
                  executions := e.executions ++ [exec] }
            else e
      else e
  | OrderSide.SELL =>
      if 0 < b.best_bid then
        match b.bids with
        | [] => e
        | (_, L) :: _ =>
            let match_quantity := min order.quantity L.total_quantity
            if 0 < match_quantity then
              let exec : Execution :=
                { execution_id := e.execution_id_counter + 1
                  symbol := order.symbol
                  side := order.side
                  price := b.best_bid
                  quantity := match_quantity
                  trader_id := order.trader_id
                  order_id := order.id }
              let b' := if L.orders.isEmpty then b else b.cancel_order L.orders.headI.id
              let e := e.setBook order.symbol b'
              { e with
                  execution_id_counter := e.execution_id_counter + 1
                  total_executions := e.total_executions + 1
                  executions := e.executions ++ [exec] }
            else e
      else e

/-- `MatchingEngine::match_orders`: one crossing check, not a loop.  When
`best_bid ≥ best_ask` with both positive, match `min` of the two best levels'
total quantities at the midpoint price, then cancel the head order of the
best bid level and the head order of the best ask level.  The `Execution` is
built from the default constructor with only `execution_id`, `symbol`,
`price`, `quantity` filled in: the source never sets `order_id`, `side` or
`trader_id` on this path (the head-order accesses `orders[0]` are unguarded
in the source; they are modelled with `headI`). -/
def match_orders (e : MatchingEngine) (symbol : String) : MatchingEngine :=
  let e := e.ensureBook symbol
  let b := e.getBook symbol
  if b.best_bid ≤ 0 ∨ b.best_ask ≤ 0 then e
  else if b.best_bid ≥ b.best_ask then
    match b.bids, b.asks with
    | (_, BL) :: _, (_, AL) :: _ =>
        let match_quantity := min BL.total_quantity AL.total_quantity
        let match_price := (b.best_bid + b.best_ask) / 2
        if 0 < match_quantity then
          let exec : Execution :=
            { execution_id := e.execution_id_counter + 1
              symbol := symbol
              price := match_price
              quantity := match_quantity }
          let b' := (b.cancel_order BL.orders.headI.id).cancel_order AL.orders.headI.id
          let e := e.setBook symbol b'
          { e with
              execution_id_counter := e.execution_id_counter + 1
              total_executions := e.total_executions + 1
              executions := e.executions ++ [exec] }
        else e
    | _, _ => e
  else e

/-- `MatchingEngine::process_order` (the order-status callback changes no
engine state and is dropped). -/
def process_order (e : MatchingEngine) (order : Order) : MatchingEngine :=
  if order.type = OrderType.MARKET then e.process_market_order order
  else
    let e := e.ensureBook order.symbol
    let e := e.setBook order.symbol ((e.getBook order.symbol).add_order order)
    e.match_orders order.symbol

end MatchingEngine

/-- `class OrderManager` state from `order_manager.h` (mutex and the three
outbound callbacks dropped; the execution callback merely forwards the record
outside the core).  The constructor zero-initialises `daily_pnl_`,
`max_drawdown_`, `peak_equity_` and uses default `RiskLimits`. -/
structure OrderManager where
  engine : MatchingEngine := {}
  active_orders : List (String × List (Nat × Order)) := []
  positions : List (String × Position) := []
  risk_limits : RiskLimits := {}
  daily_pnl : ℚ := 0
  max_drawdown : ℚ := 0
  peak_equity : ℚ := 0
deriving DecidableEq, Repr, Inhabited

namespace OrderManager

/-- `OrderManager::get_position`: snapshot copy, default `Position` when the
symbol is unknown. -/
def get_position (m : OrderManager) (s : String) : Position :=
  ((m.positions.find? (fun p => p.1 = s)).map Prod.snd).getD {}

/-- `OrderManager::check_position_limits`: project the position after the
fill and compare its magnitude against `max_order_size`. -/
def check_position_limits (m : OrderManager) (order : Order) : Bool :=
  let current := m.get_position order.symbol
  let new_quantity : ℤ :=
    if order.side = OrderSide.BUY then current.quantity + order.quantity
    else current.quantity - order.quantity
  new_quantity.natAbs ≤ m.risk_limits.max_order_size

/-- `OrderManager::check_daily_loss_limit`. -/
def check_daily_loss_limit (m : OrderManager) (_order : Order) : Bool :=
  m.daily_pnl > -m.risk_limits.max_daily_loss

/-- `OrderManager::check_risk_limits`: the source checks only the position
limit and the daily-loss floor; notional value is never examined. -/
def check_risk_limits (m : OrderManager) (order : Order) : Bool :=
  m.check_position_limits order && m.check_daily_loss_limit order

/-- Insert into the `trader_id → (id → Order)` active-order index
(`active_orders_[order.trader_id][order_id] = order`). -/
def indexOrder (m : OrderManager) (tid : String) (oid : Nat) (order : Order) :
    OrderManager :=
  let upd : List (Nat × Order) → List (Nat × Order) := fun l =>
    if l.any (fun p => p.1 = oid) then
      l.map (fun p => if p.1 = oid then (oid, order) else p)
    else l ++ [(oid, order)]
  if m.active_orders.any (fun p => p.1 = tid) then
    { m with active_orders :=
        m.active_orders.map (fun p => if p.1 = tid then (tid, upd p.2) else p) }
  else
    { m with active_orders := m.active_orders ++ [(tid, upd [])] }

/-- `OrderManager::place_order`: reject (return 0, change nothing) when the
risk checks fail; otherwise submit to the engine and record the returned id
in the active-order index. -/
def place_order (m : OrderManager) (order : Order) : Nat × OrderManager :=
  if ¬ m.check_risk_limits order then (0, m)
  else
    let (order_id, eng) := m.engine.submit_order order
    let m := { m with engine := eng }
    if 0 < order_id then (order_id, m.indexOrder order.trader_id order_id order)
    else (order_id, m)

/-- `OrderManager::update_position`: `positions_[symbol]` default-inserts;
adjust the signed quantity by the executed quantity; set `avg_price` to the
execution price whenever the resulting quantity is nonzero. -/
def update_position (m : OrderManager) (ex : Execution) : OrderManager :=
  let pos := ((m.positions.find? (fun p => p.1 = ex.symbol)).map Prod.snd).getD {}
  let pos := { pos with symbol := ex.symbol }
  let pos :=
    if ex.side = OrderSide.BUY then { pos with quantity := pos.quantity + ex.quantity }
    else { pos with quantity := pos.quantity - ex.quantity }
  let pos := if pos.quantity ≠ 0 then { pos with avg_price := ex.price } else pos
  if m.positions.any (fun p => p.1 = ex.symbol) then
    { m with positions :=
        m.positions.map (fun p => if p.1 = ex.symbol then (ex.symbol, pos) else p) }
  else
    { m with positions := m.positions ++ [(ex.symbol, pos)] }

/-- `OrderManager::on_execution`: update the position and forward the record
to the external execution callback.  The source touches nothing else: in
particular `daily_pnl_`, `max_drawdown_` and `peak_equity_` are not written,
and `update_drawdown` is never called. -/
def on_execution (m : OrderManager) (ex : Execution) : OrderManager :=
  m.update_position ex

/-- `OrderManager::update_drawdown` (defined in the source but never
invoked). -/
def update_drawdown (m : OrderManager) : OrderManager :=
  let current_equity :=
    (m.positions.map (fun p => p.2.realized_pnl + p.2.unrealized_pnl)).sum
  let peak := if current_equity > m.peak_equity then current_equity else m.peak_equity
  let m := { m with peak_equity := peak }
  if 0 < m.peak_equity then
    let drawdown := (m.peak_equity - current_equity) / m.peak_equity
    if drawdown > m.max_drawdown then { m with max_drawdown := drawdown } else m
  else m

end OrderManager

/-! ## Reachability relations -/

/-- Book states reachable through the `OrderBook` public mutating operations
with arbitrary arguments.  `modify_order` is modelled by its hypothetical
completed body `modify_order_unlocked` (the real call returns only in the
not-found case, where it is the identity): this over-approximates the
reachable set, which only strengthens invariants quantified over it. -/
inductive BookReachAny : OrderBook → Prop where
  | init (s : String) : BookReachAny (OrderBook.init s)
  | add (b : OrderBook) (o : Order) : BookReachAny b → BookReachAny (b.add_order o)
  | cancel (b : OrderBook) (i : Nat) : BookReachAny b → BookReachAny (b.cancel_order i)
  | modify (b : OrderBook) (i : Nat) (p : ℚ) (q : Nat) :
      BookReachAny b → BookReachAny (b.modify_order_unlocked i p q)
  | clear (b : OrderBook) : BookReachAny b → BookReachAny b.clear_book
  | setLast (b : OrderBook) (p : ℚ) : BookReachAny b → BookReachAny (b.set_last_price p)
  | addLimit (b : OrderBook) (p : ℚ) (q : Nat) (s : OrderSide) :
      BookReachAny b → BookReachAny (b.add_limit_order p q s)

/-- Book states reachable through `add_order`, `cancel_order` and
`modify_order` when every order handed to the book is unfilled with positive
quantity (the restriction forced by the counterexamples to C7).  As in
`BookReachAny`, modify contributes its hypothetical completed body, an
over-approximation of what the real (self-deadlocking) call can produce. -/
inductive BookReachClean : OrderBook → Prop where
  | init (s : String) : BookReachClean (OrderBook.init s)
  | add (b : OrderBook) (o : Order) : BookReachClean b → 0 < o.quantity →
      o.filled_quantity = 0 → BookReachClean (b.add_order o)
  | cancel (b : OrderBook) (i : Nat) : BookReachClean b → BookReachClean (b.cancel_order i)
  | modify (b : OrderBook) (i : Nat) (p : ℚ) (q : Nat) :
      BookReachClean b → 0 < q → BookReachClean (b.modify_order_unlocked i p q)

/-- An intent the matching cycle keeps well-behaved: a market order, or a
priced, non-empty limit-style order (the restriction forced by the
counterexample to C1). -/
def GoodIntent (o : Order) : Prop :=
  o.type = OrderType.MARKET ∨ (0 < o.price ∧ 0 < o.quantity)

/-- Engine states reachable from a fresh engine through symbol registration,
submission-queue operations and the matching worker processing good
intents. -/
inductive EngineReach : MatchingEngine → Prop where
  | init : EngineReach {}
  | add_symbol (e : MatchingEngine) (s : String) :
      EngineReach e → EngineReach (e.add_symbol s)
  | submit (e : MatchingEngine) (o : Order) :
      EngineReach e → EngineReach (e.submit_order o).2
  | cancel (e : MatchingEngine) (i : Nat) (t : String) :
      EngineReach e → EngineReach (e.cancel_order i t).2
  | modify (e : MatchingEngine) (i : Nat) (p : ℚ) (q : Nat) (t : String) :
      EngineReach e → EngineReach (e.modify_order i p q t).2
  | step (e : MatchingEngine) (o : Order) :
      EngineReach e → GoodIntent o → EngineReach (e.process_order o)

/-! ## Level-list helper lemmas -/

/-- All resting orders of a side, in level order. -/
def levelOrders (ls : Levels) : List Order := ls.flatMap (fun kL => kL.2.orders)

/-- Sum of the quantities of a list of orders. -/
def sumQty (l : List Order) : Nat := (l.map Order.quantity).sum

/-- A key-indexed property holding for every level of a side. -/
def LevelsP (P : ℚ → PriceLevel → Prop) (ls : Levels) : Prop :=
  ∀ kL ∈ ls, P kL.1 kL.2

/-- Bid keys descend strictly, as under `std::greater<double>`. -/
def BidsSorted (ls : Levels) : Prop := ls.Pairwise (fun x y => y.1 < x.1)

/-- Ask keys ascend strictly, as under `std::less<double>`. -/
def AsksSorted (ls : Levels) : Prop := ls.Pairwise (fun x y => x.1 < y.1)

/-- Shape invariant of one price level: label matches key, at least one
resting order, positive per-order quantities, and `total_quantity` equal to
the sum of the member quantities. -/
def GoodLevel (k : ℚ) (L : PriceLevel) : Prop :=
  L.price = k ∧ L.orders ≠ [] ∧ (∀ o ∈ L.orders, 0 < o.quantity) ∧
  L.total_quantity = sumQty L.orders

/-- All resting orders of a book, bids first. -/
def bookOrders (b : OrderBook) : List Order :=
  levelOrders b.bids ++ levelOrders b.asks

/-- Well-formedness of a book as maintained by the engine's matching worker:
sorted sides, positive prices, good levels, distinct stamped ids bounded by
the sequence number, and cached best prices in sync with the sides. -/
structure BookWF (b : OrderBook) : Prop where
  bidsSorted : BidsSorted b.bids
  asksSorted : AsksSorted b.asks
  bidsGood : LevelsP GoodLevel b.bids
  asksGood : LevelsP GoodLevel b.asks
  bidsPos : LevelsP (fun k _ => 0 < k) b.bids
  asksPos : LevelsP (fun k _ => 0 < k) b.asks
  idsNodup : ((bookOrders b).map Order.id).Nodup
  idsLe : ∀ o ∈ bookOrders b, o.id ≤ b.sequence_number
  bestBid : b.best_bid = headKey b.bids
  bestAsk : b.best_ask = headKey b.asks

/-- The claim's notion of an uncrossed book, stated on the sides. -/
def NotCrossed (b : OrderBook) : Prop :=
  b.bids = [] ∨ b.asks = [] ∨ headKey b.bids < headKey b.asks

/-- Every book owned by the engine is well-formed and uncrossed. -/
def EngineInv (e : MatchingEngine) : Prop :=
  ∀ p ∈ e.order_books, BookWF p.2 ∧ NotCrossed p.2

/-! ## Scenario fixtures -/

/-- A resting-sell intent: SELL 10 @ 100 on symbol "S". -/
def sellTen : Order :=
  { symbol := "S", side := OrderSide.SELL, type := OrderType.LIMIT,
    price := 100, quantity := 10, trader_id := "A" }

/-- A zero-quantity buy intent priced through the book: BUY 0 @ 105. -/
def zeroQtyBuy : Order :=
  { symbol := "S", side := OrderSide.BUY, type := OrderType.LIMIT,
    price := 105, quantity := 0, trader_id := "B" }

/-- A crossing buy intent: BUY 5 @ 100. -/
def crossingBuy : Order :=
  { symbol := "S", side := OrderSide.BUY, type := OrderType.LIMIT,
    price := 100, quantity := 5, trader_id := "B" }

/-- Engine holding one resting SELL 10 @ 100 on "S". -/
def engineWithSell : MatchingEngine :=
  (({} : MatchingEngine).add_symbol "S").process_order sellTen

/-- An order whose notional value exceeds the default `max_position_value`
while passing the position-size and daily-loss checks. -/
def bigNotionalOrder : Order :=
  { symbol := "S", side := OrderSide.BUY, type := OrderType.LIMIT,
    price := 20000, quantity := 100, trader_id := "T" }

/-- An order rejected by the position-size proxy check (quantity 20001 with
default `max_order_size` = 10000). -/
def oversizedOrder : Order :=
  { symbol := "S", side := OrderSide.BUY, type := OrderType.LIMIT,
    price := 10, quantity := 20001, trader_id := "T" }

/-- The resting buy of scenario S1: BUY 100 @ 150. -/
def buy150 : Order :=
  { symbol := "S", side := OrderSide.BUY, type := OrderType.LIMIT,
    price := 150, quantity := 100, trader_id := "A" }

/-- The taker of scenario S1: SELL 100 @ 150 with stamped id 7. -/
def s1Taker : Order :=
  { id := 7, symbol := "S", side := OrderSide.SELL, type := OrderType.LIMIT,
    price := 150, quantity := 100, trader_id := "B" }

/-- Engine after scenario S1: resting BUY 100 @ 150, then the taker SELL. -/
def s1Engine : MatchingEngine :=
  ((({} : MatchingEngine).add_symbol "S").process_order buy150).process_order s1Taker

/-- A crossed book built directly from two `add_order` calls (the book does
not match on its own). -/
def crossedBook : OrderBook :=
  ((OrderBook.init "S").add_order buy150).add_order { s1Taker with id := 0 }

/-- An engine owning the crossed book, ready for `match_orders`. -/
def c5Engine : MatchingEngine := { order_books := [("S", crossedBook)] }

/-- S3 resting sells. -/
def sell101 : Order :=
  { symbol := "S", side := OrderSide.SELL, type := OrderType.LIMIT,
    price := 101, quantity := 10, trader_id := "A" }

def sell102 : Order :=
  { symbol := "S", side := OrderSide.SELL, type := OrderType.LIMIT,
    price := 102, quantity := 30, trader_id := "A" }

def sell103 : Order :=
  { symbol := "S", side := OrderSide.SELL, type := OrderType.LIMIT,
    price := 103, quantity := 50, trader_id := "A" }

/-- Engine after scenario S3 setup: SELL 10 @ 101, 30 @ 102, 50 @ 103. -/
def s3Engine : MatchingEngine :=
  (((({} : MatchingEngine).add_symbol "S").process_order sell101).process_order
    sell102).process_order sell103

/-- The S3 market order: MARKET BUY 60 (stamped id 9). -/
def marketBuy60 : Order :=
  { id := 9, symbol := "S", side := OrderSide.BUY, type := OrderType.MARKET,
    quantity := 60, trader_id := "B" }

/-- A small market buy against the one-sell engine. -/
def marketBuy4 : Order :=
  { id := 5, symbol := "S", side := OrderSide.BUY, type := OrderType.MARKET,
    quantity := 4, trader_id := "B" }

/-- The single ask level resting in `engineWithSell`. -/
def askLevel100 : PriceLevel :=
  { price := 100, total_quantity := 10, orders := [{ sellTen with id := 1 }] }

/-- A resting-buy intent: BUY 10 @ 100 on symbol "S". -/
def buyTen : Order :=
  { symbol := "S", side := OrderSide.BUY, type := OrderType.LIMIT,
    price := 100, quantity := 10, trader_id := "A" }

/-- Engine holding one resting BUY 10 @ 100 on "S". -/
def engineWithBuy : MatchingEngine :=
  (({} : MatchingEngine).add_symbol "S").process_order buyTen

/-- A small market sell against the one-buy engine. -/
def marketSell4 : Order :=
  { id := 5, symbol := "S", side := OrderSide.SELL, type := OrderType.MARKET,
    quantity := 4, trader_id := "B" }

/-- The single bid level resting in `engineWithBuy`. -/
def bidLevel100 : PriceLevel :=
  { price := 100, total_quantity := 10, orders := [{ buyTen with id := 1 }] }

/-- Level invariant for C7's amended claim: a nonempty queue of unfilled,
positive-quantity orders whose quantities sum to `total_quantity`. -/
def CleanLevel (_k : ℚ) (L : PriceLevel) : Prop :=
  L.orders ≠ [] ∧ (∀ o ∈ L.orders, 0 < o.quantity ∧ o.filled_quantity = 0) ∧
  L.total_quantity = sumQty L.orders

/-- Book-level form of the C7 invariant. -/
def CleanBook (b : OrderBook) : Prop :=
  LevelsP CleanLevel b.bids ∧ LevelsP CleanLevel b.asks

/-- An order handed to the book pre-filled: quantity 10, filled 5. -/
def filledOrder : Order :=
  { symbol := "S", side := OrderSide.BUY, type := OrderType.LIMIT,
    price := 100, quantity := 10, filled_quantity := 5, trader_id := "T" }

/-- A clean buy order: BUY 10 @ 100, unfilled. -/
def cleanBuy : Order :=
  { symbol := "S", side := OrderSide.BUY, type := OrderType.LIMIT,
    price := 100, quantity := 10, trader_id := "T" }

/-- The single price level of the book holding just `cleanBuy`. -/
def c7Level : ℚ × PriceLevel :=
  (100, { price := 100, total_quantity := 10, orders := [{ cleanBuy with id := 1 }] })

/-- The single price level of the book holding just `buy150`. -/
def c10Level : PriceLevel :=
  { price := 150, total_quantity := 100, orders := [{ buy150 with id := 1 }] }

/-- Every level of both sides has a nonempty order queue. -/
def NonemptyLevels (b : OrderBook) : Prop :=
  LevelsP (fun _ L => L.orders ≠ []) b.bids ∧
  LevelsP (fun _ L => L.orders ≠ []) b.asks

/-- Fixtures for the concrete C8 instances: a book with a bid at 100 and
asks at 99 (id 2, the order whose modify self-deadlocks) and 101. -/
def buy100q10 : Order :=
  { symbol := "S", side := OrderSide.BUY, type := OrderType.LIMIT,
    price := 100, quantity := 10, trader_id := "B" }

def sell99q5 : Order :=
  { symbol := "S", side := OrderSide.SELL, type := OrderType.LIMIT,
    price := 99, quantity := 5, trader_id := "A" }

def sell101q5 : Order :=
  { symbol := "S", side := OrderSide.SELL, type := OrderType.LIMIT,
    price := 101, quantity := 5, trader_id := "A" }

def b8 : OrderBook :=
  (((OrderBook.init "S").add_order buy100q10).add_order sell99q5).add_order
    sell101q5

theorem levelOrders_nil : levelOrders [] = [] := rfl

theorem levelOrders_cons (kL : ℚ × PriceLevel) (ls : Levels) :
    levelOrders (kL :: ls) = kL.2.orders ++ levelOrders ls := rfl

/-- Specification of `removeOrder`: on success it removes exactly the first
order carrying the id. -/
theorem removeOrder_some_spec {oid : Nat} {l : List Order} {o : Order}
    {os : List Order} (h : removeOrder oid l = some (o, os)) :
    ∃ pre post, l = pre ++ o :: post ∧ os = pre ++ post ∧ o.id = oid ∧
      ∀ x ∈ pre, x.id ≠ oid := by
  induction l generalizing os with
  | nil => simp [removeOrder] at h
  | cons a l ih =>
      rw [removeOrder] at h
      by_cases ha : a.id = oid
      · rw [if_pos ha] at h
        simp only [Option.some.injEq, Prod.mk.injEq] at h
        obtain ⟨rfl, rfl⟩ := h
        exact ⟨[], l, rfl, rfl, ha, by simp⟩
      · rw [if_neg ha, Option.map_eq_some'] at h
        obtain ⟨⟨o', os'⟩, h1, h2⟩ := h
        simp only [Prod.mk.injEq] at h2
        obtain ⟨rfl, rfl⟩ := h2
        obtain ⟨pre, post, hl, hos, hid, hpre⟩ := ih h1
        refine ⟨a :: pre, post, by simp [hl], by simp [hos], hid, ?_⟩
        intro x hx
        rcases List.mem_cons.mp hx with rfl | hx
        · exact ha
        · exact hpre x hx

/-- `removeOrder` fails exactly when no order carries the id. -/
theorem removeOrder_none_iff {oid : Nat} {l : List Order} :
    removeOrder oid l = none ↔ ∀ x ∈ l, x.id ≠ oid := by
  induction l with
  | nil => simp [removeOrder]
  | cons a l ih =>
      rw [removeOrder]
      by_cases ha : a.id = oid
      · simp [ha]
      · simp [ha, ih]

/-- Specification of `removeFromLevels`: on success it rewrites exactly the
first level containing the id, leaving every other level untouched. -/
theorem removeFromLevels_some_spec {oid : Nat} {ls : Levels} {o : Order}
    {ls' : Levels} (h : removeFromLevels oid ls = some (o, ls')) :
    ∃ (pre post : Levels) (k : ℚ) (L : PriceLevel) (os : List Order),
      ls = pre ++ (k, L) :: post ∧
      removeOrder oid L.orders = some (o, os) ∧
      (∀ kL ∈ pre, ∀ x ∈ kL.2.orders, x.id ≠ oid) ∧
      ls' = pre ++ (if os.isEmpty then post else
        ((k, { L with total_quantity := L.total_quantity - o.quantity,
                      orders := os }) :: post)) := by
  induction ls generalizing ls' with
  | nil => simp [removeFromLevels] at h
  | cons kL ls ih =>
      obtain ⟨k, L⟩ := kL
      rw [removeFromLevels] at h
      cases hro : removeOrder oid L.orders with
      | some p =>
          obtain ⟨o', os⟩ := p
          rw [hro] at h
          simp only [Option.some.injEq, Prod.mk.injEq] at h
          obtain ⟨rfl, rfl⟩ := h
          exact ⟨[], ls, k, L, os, by simp, hro, by simp, by simp⟩
      | none =>
          rw [hro, Option.map_eq_some'] at h
          obtain ⟨⟨o', rest'⟩, h1, h2⟩ := h
          simp only [Prod.mk.injEq] at h2
          obtain ⟨rfl, rfl⟩ := h2
          obtain ⟨pre, post, k', L', os, hls, hr, hpre, hrest⟩ := ih h1
          refine ⟨(k, L) :: pre, post, k', L', os, by simp [hls], hr, ?_, by simp [hrest]⟩
          intro kL hkL x hx
          rcases List.mem_cons.mp hkL with rfl | hkL
          · exact removeOrder_none_iff.mp hro x hx
          · exact hpre kL hkL x hx

/-- `removeFromLevels` fails exactly when no resting order carries the id. -/
theorem removeFromLevels_none_iff {oid : Nat} {ls : Levels} :
    removeFromLevels oid ls = none ↔ ∀ x ∈ levelOrders ls, x.id ≠ oid := by
  induction ls with
  | nil => simp [removeFromLevels, levelOrders]
  | cons kL ls ih =>
      obtain ⟨k, L⟩ := kL
      rw [removeFromLevels]
      cases hro : removeOrder oid L.orders with
      | some p =>
          simp only [levelOrders_cons]
          constructor
          · intro hcontra; cases hcontra
          · intro hall
            obtain ⟨pre, post, hl, _, hid, _⟩ := removeOrder_some_spec hro
            exact absurd hid (hall p.1 (by simp [hl]))
      | none =>
          simp only [Option.map_eq_none', levelOrders_cons, List.mem_append]
          rw [ih]
          constructor
          · intro hall x hx
            rcases hx with hx | hx
            · exact removeOrder_none_iff.mp hro x hx
            · exact hall x hx
          · intro hall x hx
            exact hall x (Or.inr hx)

theorem levelsP_upsert {P : ℚ → PriceLevel → Prop} {ltb : ℚ → ℚ → Bool}
    {k : ℚ} {f : PriceLevel → PriceLevel} {ls : Levels}
    (hls : LevelsP P ls) (hdflt : P k (f {}))
    (hstep : ∀ L, P k L → P k (f L)) :
    LevelsP P (upsertLevel ltb k f ls) := by
  induction ls with
  | nil =>
      intro kL hkL
      rcases List.mem_singleton.mp hkL with rfl
      exact hdflt
  | cons kv ls ih =>
      obtain ⟨k', v⟩ := kv
      rw [upsertLevel]
      by_cases hk : k = k'
      · rw [if_pos hk]
        intro kL hkL
        rcases List.mem_cons.mp hkL with rfl | hkL
        · exact hk ▸ hstep v (hk ▸ hls (k', v) (by simp))
        · exact hls kL (List.mem_cons_of_mem _ hkL)
      · rw [if_neg hk]
        by_cases hlt : ltb k k'
        · rw [if_pos hlt]
          intro kL hkL
          rcases List.mem_cons.mp hkL with rfl | hkL
          · exact hdflt
          · exact hls kL hkL
        · rw [if_neg hlt]
          intro kL hkL
          rcases List.mem_cons.mp hkL with rfl | hkL
          · exact hls (k', v) (by simp)
          · exact ih (fun x hx => hls x (List.mem_cons_of_mem _ hx)) kL hkL

theorem levelsP_remove {P : ℚ → PriceLevel → Prop} {oid : Nat} {ls : Levels}
    {o : Order} {ls' : Levels}
    (h : removeFromLevels oid ls = some (o, ls')) (hls : LevelsP P ls)
    (hstep : ∀ k L os, P k L → removeOrder oid L.orders = some (o, os) →
      os ≠ [] →
      P k { L with total_quantity := L.total_quantity - o.quantity, orders := os }) :
    LevelsP P ls' := by
  obtain ⟨pre, post, k, L, os, hl, hr, hno, hout⟩ := removeFromLevels_some_spec h
  subst hl hout
  intro kL hkL
  rcases List.mem_append.mp hkL with hkL | hkL
  · exact hls kL (List.mem_append.mpr (Or.inl hkL))
  · by_cases hos : os.isEmpty
    · rw [if_pos hos] at hkL
      exact hls kL (by simp [hkL])
    · rw [if_neg hos] at hkL
      rcases List.mem_cons.mp hkL with rfl | hkL
      · exact hstep k L os (hls (k, L) (by simp)) hr (by simpa using hos)
      · exact hls kL (by simp [hkL])

/-- The keys after a removal are a sublist of the keys before. -/
theorem keys_sublist_of_remove {oid : Nat} {ls : Levels} {o : Order}
    {ls' : Levels} (h : removeFromLevels oid ls = some (o, ls')) :
    (ls'.map Prod.fst).Sublist (ls.map Prod.fst) := by
  obtain ⟨pre, post, k, L, os, hl, hr, hno, hout⟩ := removeFromLevels_some_spec h
  subst hl hout
  by_cases hos : os.isEmpty
  · rw [if_pos hos]
    simp only [List.map_append, List.map_cons]
    exact (List.Sublist.refl _).append ((List.sublist_cons_self _ _))
  · rw [if_neg hos]
    simp only [List.map_append, List.map_cons]
    exact List.Sublist.refl _

/-- The resting orders after a removal are a sublist of those before. -/
theorem orders_sublist_of_remove {oid : Nat} {ls : Levels} {o : Order}
    {ls' : Levels} (h : removeFromLevels oid ls = some (o, ls')) :
    (levelOrders ls').Sublist (levelOrders ls) := by
  obtain ⟨pre, post, k, L, os, hl, hr, hno, hout⟩ := removeFromLevels_some_spec h
  obtain ⟨p1, p2, hLo, hos, hid, hp1⟩ := removeOrder_some_spec hr
  subst hl hout
  have hsub : os.Sublist L.orders := by
    rw [hLo, hos]
    exact (List.Sublist.refl p1).append (List.sublist_cons_self _ _)
  by_cases hem : os.isEmpty
  · rw [if_pos hem]
    simp only [levelOrders, List.flatMap_append, List.flatMap_cons]
    exact (List.Sublist.refl _).append (List.sublist_append_right _ _)
  · rw [if_neg hem]
    simp only [levelOrders, List.flatMap_append, List.flatMap_cons]
    exact (List.Sublist.refl _).append (hsub.append (List.Sublist.refl _))

/-- Upserting with an order-appending update permutes the side's resting
orders to the new order plus the old ones. -/
theorem orders_perm_upsert {ltb : ℚ → ℚ → Bool} {k : ℚ}
    {f : PriceLevel → PriceLevel} {a : Order}
    (hf : ∀ L, (f L).orders = L.orders ++ [a]) (ls : Levels) :
    (levelOrders (upsertLevel ltb k f ls)).Perm (a :: levelOrders ls) := by
  induction ls with
  | nil => simp [upsertLevel, levelOrders, hf]
  | cons kv ls ih =>
      obtain ⟨k', v⟩ := kv
      rw [upsertLevel]
      by_cases hk : k = k'
      · rw [if_pos hk]
        simp only [levelOrders_cons, hf, List.append_assoc, List.singleton_append]
        exact List.perm_middle
      · rw [if_neg hk]
        by_cases hlt : ltb k k'
        · rw [if_pos hlt]
          simp only [levelOrders_cons, hf]
          exact List.Perm.refl _
        · rw [if_neg hlt]
          simp only [levelOrders_cons]
          exact (ih.append_left v.orders).trans List.perm_middle

/-- Every key after an upsert is the new key or an old key. -/
theorem keys_upsert_subset {ltb : ℚ → ℚ → Bool} {k : ℚ}
    {f : PriceLevel → PriceLevel} {ls : Levels} {x : ℚ × PriceLevel}
    (hx : x ∈ upsertLevel ltb k f ls) : x.1 = k ∨ x.1 ∈ ls.map Prod.fst := by
  induction ls with
  | nil =>
      rcases List.mem_singleton.mp hx with rfl
      exact Or.inl rfl
  | cons kv ls ih =>
      obtain ⟨k', v⟩ := kv
      rw [upsertLevel] at hx
      by_cases hk : k = k'
      · rw [if_pos hk] at hx
        rcases List.mem_cons.mp hx with rfl | hx
        · exact Or.inl hk.symm
        · exact Or.inr (List.mem_map_of_mem _ (List.mem_cons_of_mem _ hx))
      · rw [if_neg hk] at hx
        by_cases hlt : ltb k k'
        · rw [if_pos hlt] at hx
          rcases List.mem_cons.mp hx with rfl | hx
          · exact Or.inl rfl
          · exact Or.inr (List.mem_map_of_mem _ hx)
        · rw [if_neg hlt] at hx
          rcases List.mem_cons.mp hx with rfl | hx
          · exact Or.inr (List.mem_map_of_mem _ (List.mem_cons_self _ _))
          · rcases ih hx with h | h
            · exact Or.inl h
            · rw [List.map_cons]
              exact Or.inr (List.mem_cons_of_mem _ h)

/-- Sorted-insertion: `upsertLevel` preserves strict pairwise key ordering
for any comparator agreeing with a transitive, total strict relation. -/
theorem pairwise_upsert {R : ℚ → ℚ → Prop} {ltb : ℚ → ℚ → Bool}
    (hltb : ∀ a b, ltb a b = true ↔ R a b)
    (htrans : ∀ a b c, R a b → R b c → R a c)
    (htot : ∀ a b, a ≠ b → ¬ R a b → R b a)
    {k : ℚ} {f : PriceLevel → PriceLevel} {ls : Levels}
    (h : ls.Pairwise (fun x y => R x.1 y.1)) :
    (upsertLevel ltb k f ls).Pairwise (fun x y => R x.1 y.1) := by
  induction ls with
  | nil => simp [upsertLevel]
  | cons kv ls ih =>
      obtain ⟨k', v⟩ := kv
      rw [List.pairwise_cons] at h
      obtain ⟨hhead, htail⟩ := h
      rw [upsertLevel]
      by_cases hk : k = k'
      · rw [if_pos hk]
        exact List.pairwise_cons.mpr ⟨hhead, htail⟩
      · rw [if_neg hk]
        by_cases hlt : ltb k k'
        · rw [if_pos hlt]
          refine List.pairwise_cons.mpr ⟨?_, List.pairwise_cons.mpr ⟨hhead, htail⟩⟩
          intro y hy
          rcases List.mem_cons.mp hy with rfl | hy
          · exact (hltb k k').mp hlt
          · exact htrans _ _ _ ((hltb k k').mp hlt) (hhead y hy)
        · rw [if_neg hlt]
          refine List.pairwise_cons.mpr ⟨?_, ih htail⟩
          intro y hy
          rcases keys_upsert_subset hy with h1 | h1
          · rw [h1]
            exact htot k k' hk (fun hr => hlt ((hltb k k').mpr hr))
          · obtain ⟨z, hz1, hz2⟩ := List.mem_map.mp h1
            have hk' := hhead z hz1
            rw [hz2] at hk'
            exact hk'

theorem bidsSorted_upsert {k : ℚ} {f : PriceLevel → PriceLevel} {ls : Levels}
    (h : BidsSorted ls) : BidsSorted (upsertLevel bidLT k f ls) :=
  pairwise_upsert (R := fun a b => b < a)
    (fun _ _ => by simp [bidLT])
    (fun _ _ _ h1 h2 => lt_trans h2 h1)
    (fun _ _ hne hnr => lt_of_le_of_ne (not_lt.mp hnr) hne)
    h

theorem asksSorted_upsert {k : ℚ} {f : PriceLevel → PriceLevel} {ls : Levels}
    (h : AsksSorted ls) : AsksSorted (upsertLevel askLT k f ls) :=
  pairwise_upsert (R := fun a b => a < b)
    (fun _ _ => by simp [askLT])
    (fun _ _ _ h1 h2 => lt_trans h1 h2)
    (fun _ _ hne hnr => lt_of_le_of_ne (not_lt.mp hnr) (Ne.symm hne))
    h

/-- Inserting a strictly better bid price places it at the head. -/
theorem upsert_cons_head_bid {k k' : ℚ} {v : PriceLevel} {ls : Levels}
    (f : PriceLevel → PriceLevel) (h : k' < k) :
    upsertLevel bidLT k f ((k', v) :: ls) = (k, f {}) :: (k', v) :: ls := by
  rw [upsertLevel, if_neg (ne_of_gt h), if_pos (by simp [bidLT, h])]

/-- Inserting a strictly better ask price places it at the head. -/
theorem upsert_cons_head_ask {k k' : ℚ} {v : PriceLevel} {ls : Levels}
    (f : PriceLevel → PriceLevel) (h : k < k') :
    upsertLevel askLT k f ((k', v) :: ls) = (k, f {}) :: (k', v) :: ls := by
  rw [upsertLevel, if_neg (ne_of_lt h), if_pos (by simp [askLT, h])]

theorem headKey_upsert_bid (k : ℚ) (f : PriceLevel → PriceLevel) (k' : ℚ)
    (v : PriceLevel) (ls : Levels) :
    headKey (upsertLevel bidLT k f ((k', v) :: ls)) = max k k' := by
  rw [upsertLevel]
  by_cases hk : k = k'
  · rw [if_pos hk, headKey, hk, max_self]
  · rw [if_neg hk]
    by_cases hlt : bidLT k k'
    · rw [if_pos hlt, headKey]
      have : k' < k := by simpa [bidLT] using hlt
      exact (max_eq_left (le_of_lt this)).symm
    · rw [if_neg hlt, headKey]
      have : ¬ k' < k := by simpa [bidLT] using hlt
      exact (max_eq_right (not_lt.mp this)).symm

theorem headKey_upsert_ask (k : ℚ) (f : PriceLevel → PriceLevel) (k' : ℚ)
    (v : PriceLevel) (ls : Levels) :
    headKey (upsertLevel askLT k f ((k', v) :: ls)) = min k k' := by
  rw [upsertLevel]
  by_cases hk : k = k'
  · rw [if_pos hk, headKey, hk, min_self]
  · rw [if_neg hk]
    by_cases hlt : askLT k k'
    · rw [if_pos hlt, headKey]
      have : k < k' := by simpa [askLT] using hlt
      exact (min_eq_left (le_of_lt this)).symm
    · rw [if_neg hlt, headKey]
      have h2 : ¬ k < k' := by simpa [askLT] using hlt
      exact (min_eq_right (not_lt.mp h2)).symm

/-- In a descending side every key is at most the head key. -/
theorem key_le_headKey_of_bidsSorted {ls : Levels} (h : BidsSorted ls)
    {x : ℚ} (hx : x ∈ ls.map Prod.fst) : x ≤ headKey ls := by
  cases ls with
  | nil => simp at hx
  | cons kv ls =>
      rw [List.map_cons, List.mem_cons] at hx
      rw [headKey]
      rcases hx with rfl | hx
      · exact le_refl _
      · obtain ⟨z, hz1, hz2⟩ := List.mem_map.mp hx
        rw [BidsSorted, List.pairwise_cons] at h
        exact le_of_lt (hz2 ▸ h.1 z hz1)

/-- In an ascending side every key is at least the head key. -/
theorem headKey_le_key_of_asksSorted {ls : Levels} (h : AsksSorted ls)
    {x : ℚ} (hx : x ∈ ls.map Prod.fst) : headKey ls ≤ x := by
  cases ls with
  | nil => simp at hx
  | cons kv ls =>
      rw [List.map_cons, List.mem_cons] at hx
      rw [headKey]
      rcases hx with rfl | hx
      · exact le_refl _
      · obtain ⟨z, hz1, hz2⟩ := List.mem_map.mp hx
        rw [AsksSorted, List.pairwise_cons] at h
        exact le_of_lt (hz2 ▸ h.1 z hz1)

theorem headKey_mem {ls : Levels} (h : ls ≠ []) : headKey ls ∈ ls.map Prod.fst := by
  cases ls with
  | nil => exact absurd rfl h
  | cons kv ls => rw [headKey]; exact List.mem_cons_self _ _

/-! ## Book well-formedness -/

theorem sumQty_append (l1 l2 : List Order) :
    sumQty (l1 ++ l2) = sumQty l1 + sumQty l2 := by
  simp [sumQty]

theorem sumQty_cons (o : Order) (l : List Order) :
    sumQty (o :: l) = o.quantity + sumQty l := by
  simp [sumQty]

theorem sumQty_pos {l : List Order} (hne : l ≠ [])
    (hpos : ∀ o ∈ l, 0 < o.quantity) : 0 < sumQty l := by
  cases l with
  | nil => exact absurd rfl hne
  | cons o l =>
      rw [sumQty_cons]
      exact Nat.lt_of_lt_of_le (hpos o (List.mem_cons_self _ _)) (Nat.le_add_right _ _)

theorem bidsSorted_of_keys_sublist {ls ls' : Levels} (h : BidsSorted ls)
    (hsub : (ls'.map Prod.fst).Sublist (ls.map Prod.fst)) : BidsSorted ls' := by
  have h1 : (ls.map Prod.fst).Pairwise (fun a b => b < a) := List.pairwise_map.mpr h
  exact List.pairwise_map.mp (List.Pairwise.sublist hsub h1)

theorem asksSorted_of_keys_sublist {ls ls' : Levels} (h : AsksSorted ls)
    (hsub : (ls'.map Prod.fst).Sublist (ls.map Prod.fst)) : AsksSorted ls' := by
  have h1 : (ls.map Prod.fst).Pairwise (fun a b => a < b) := List.pairwise_map.mpr h
  exact List.pairwise_map.mp (List.Pairwise.sublist hsub h1)

/-- `GoodLevel` survives removal of one order from a level. -/
theorem goodLevel_remove {oid : Nat} {k : ℚ} {L : PriceLevel} {o : Order}
    {os : List Order} (hL : GoodLevel k L)
    (hr : removeOrder oid L.orders = some (o, os)) (hos : os ≠ []) :
    GoodLevel k { L with total_quantity := L.total_quantity - o.quantity,
                         orders := os } := by
  obtain ⟨hprice, hne, hpos, hsum⟩ := hL
  obtain ⟨pre, post, hlo, hosr, hid, hpre⟩ := removeOrder_some_spec hr
  refine ⟨hprice, hos, ?_, ?_⟩
  · intro x hx
    refine hpos x ?_
    rw [hlo]
    rw [hosr, List.mem_append] at hx
    rcases hx with hx | hx
    · exact List.mem_append.mpr (Or.inl hx)
    · exact List.mem_append.mpr (Or.inr (List.mem_cons_of_mem _ hx))
  · show L.total_quantity - o.quantity = sumQty os
    rw [hsum, hlo, hosr, sumQty_append, sumQty_append, sumQty_cons]
    omega

/-- Ids are distinct across the two sides of a well-formed book. -/
theorem id_ne_of_nodup_append {X Y : List Order}
    (h : ((X ++ Y).map Order.id).Nodup) {x y : Order}
    (hx : x ∈ X) (hy : y ∈ Y) : x.id ≠ y.id := by
  rw [List.map_append] at h
  intro heq
  have hx' : x.id ∈ X.map Order.id := List.mem_map_of_mem _ hx
  have hy' : y.id ∈ Y.map Order.id := List.mem_map_of_mem _ hy
  rw [heq] at hx'
  exact (List.disjoint_of_nodup_append h) hx' hy' 

theorem update_best_prices_bids (b : OrderBook) :
    (b.update_best_prices).bids = b.bids := rfl

theorem update_best_prices_asks (b : OrderBook) :
    (b.update_best_prices).asks = b.asks := rfl

theorem update_best_prices_seq (b : OrderBook) :
    (b.update_best_prices).sequence_number = b.sequence_number := rfl

theorem update_best_prices_best_bid (b : OrderBook) :
    (b.update_best_prices).best_bid = headKey b.bids := rfl

theorem update_best_prices_best_ask (b : OrderBook) :
    (b.update_best_prices).best_ask = headKey b.asks := rfl

theorem pushOrder_orders (p : ℚ) (q : Nat) (a : Order) (L : PriceLevel) :
    (pushOrder p q a L).orders = L.orders ++ [a] := rfl

/-- The two shapes `add_order` can take, by incoming side. -/
theorem add_order_buy {b : OrderBook} {o : Order} (h : o.side = OrderSide.BUY) :
    b.add_order o = OrderBook.update_best_prices
      { b with sequence_number := b.sequence_number + 1,
               bids := upsertLevel bidLT o.price
                 (pushOrder o.price o.quantity { o with id := b.sequence_number + 1 })
                 b.bids } := by
  rw [OrderBook.add_order]
  simp only [h, if_pos]

theorem add_order_sell {b : OrderBook} {o : Order} (h : o.side ≠ OrderSide.BUY) :
    b.add_order o = OrderBook.update_best_prices
      { b with sequence_number := b.sequence_number + 1,
               asks := upsertLevel askLT o.price
                 (pushOrder o.price o.quantity { o with id := b.sequence_number + 1 })
                 b.asks } := by
  rw [OrderBook.add_order]
  simp only [h, if_neg, if_false]

/-- `GoodLevel` facts for the pushed level of an `add_order`. -/
theorem goodLevel_push {o : Order} {seq : Nat} (hq : 0 < o.quantity) :
    GoodLevel o.price (pushOrder o.price o.quantity { o with id := seq + 1 } {}) ∧
    ∀ L, GoodLevel o.price L →
      GoodLevel o.price (pushOrder o.price o.quantity { o with id := seq + 1 } L) := by
  constructor
  · exact ⟨rfl, by simp [pushOrder], by
      intro x hx
      simp only [pushOrder, List.nil_append, List.mem_singleton] at hx
      subst hx
      exact hq, by simp [pushOrder, sumQty]⟩
  · intro L hL
    obtain ⟨hprice, hne, hpos, hsum⟩ := hL
    refine ⟨rfl, by simp [pushOrder], ?_, ?_⟩
    · intro x hx
      simp only [pushOrder, List.mem_append, List.mem_singleton] at hx
      rcases hx with hx | rfl
      · exact hpos x hx
      · exact hq
    · simp only [pushOrder, sumQty_append, ← hsum]
      simp [sumQty]

/-- `add_order` with a positive price and quantity preserves
well-formedness. -/
theorem bookWF_add {b : OrderBook} {o : Order} (hwf : BookWF b)
    (hp : 0 < o.price) (hq : 0 < o.quantity) : BookWF (b.add_order o) := by
  obtain ⟨hbs, has, hbg, hag, hbp, hap, hnd, hle, hbb, hba⟩ := hwf
  have hperm_side : ∀ (ltb : ℚ → ℚ → Bool) (ls : Levels),
      (levelOrders (upsertLevel ltb o.price
        (pushOrder o.price o.quantity { o with id := b.sequence_number + 1 }) ls)).Perm
      ({ o with id := b.sequence_number + 1 } :: levelOrders ls) :=
    fun ltb ls => orders_perm_upsert (fun _ => rfl) ls
  have hidfresh : ∀ x ∈ bookOrders b, x.id ≠ b.sequence_number + 1 := by
    intro x hx
    have := hle x hx
    omega
  by_cases hside : o.side = OrderSide.BUY
  · rw [add_order_buy hside]
    refine ⟨?_, ?_, ?_, ?_, ?_, ?_, ?_, ?_, ?_, ?_⟩
    · exact bidsSorted_upsert hbs
    · exact has
    · exact levelsP_upsert hbg (goodLevel_push hq).1 (goodLevel_push hq).2
    · exact hag
    · exact levelsP_upsert hbp hp (fun _ h => h)
    · exact hap
    · have hperm : (bookOrders (OrderBook.update_best_prices
          { b with sequence_number := b.sequence_number + 1,
                   bids := upsertLevel bidLT o.price
                     (pushOrder o.price o.quantity { o with id := b.sequence_number + 1 })
                     b.bids })).Perm
          ({ o with id := b.sequence_number + 1 } :: bookOrders b) := by
        simp only [bookOrders, update_best_prices_bids, update_best_prices_asks]
        exact ((hperm_side bidLT b.bids).append_right _).trans (List.Perm.refl _)
      refine ((hperm.map Order.id).nodup_iff).mpr ?_
      rw [List.map_cons, List.nodup_cons]
      refine ⟨?_, hnd⟩
      intro hmem
      obtain ⟨x, hx1, hx2⟩ := List.mem_map.mp hmem
      exact hidfresh x hx1 hx2
    · intro x hx
      have hperm : (bookOrders (OrderBook.update_best_prices
          { b with sequence_number := b.sequence_number + 1,
                   bids := upsertLevel bidLT o.price
                     (pushOrder o.price o.quantity { o with id := b.sequence_number + 1 })
                     b.bids })).Perm
          ({ o with id := b.sequence_number + 1 } :: bookOrders b) := by
        simp only [bookOrders, update_best_prices_bids, update_best_prices_asks]
        exact ((hperm_side bidLT b.bids).append_right _).trans (List.Perm.refl _)
      have hx' := hperm.mem_iff.mp hx
      rw [update_best_prices_seq]
      rcases List.mem_cons.mp hx' with rfl | hx'
      · exact le_refl _
      · exact Nat.le_succ_of_le (hle x hx')
    · exact update_best_prices_best_bid _
    · exact update_best_prices_best_ask _
  · rw [add_order_sell hside]
    refine ⟨?_, ?_, ?_, ?_, ?_, ?_, ?_, ?_, ?_, ?_⟩
    · exact hbs
    · exact asksSorted_upsert has
    · exact hbg
    · exact levelsP_upsert hag (goodLevel_push hq).1 (goodLevel_push hq).2
    · exact hbp
    · exact levelsP_upsert hap hp (fun _ h => h)
    · have hperm : (bookOrders (OrderBook.update_best_prices
          { b with sequence_number := b.sequence_number + 1,
                   asks := upsertLevel askLT o.price
                     (pushOrder o.price o.quantity { o with id := b.sequence_number + 1 })
                     b.asks })).Perm
          ({ o with id := b.sequence_number + 1 } :: bookOrders b) := by
        simp only [bookOrders, update_best_prices_bids, update_best_prices_asks]
        exact ((hperm_side askLT b.asks).append_left _).trans List.perm_middle
      refine ((hperm.map Order.id).nodup_iff).mpr ?_
      rw [List.map_cons, List.nodup_cons]
      refine ⟨?_, hnd⟩
      intro hmem
      obtain ⟨x, hx1, hx2⟩ := List.mem_map.mp hmem
      exact hidfresh x hx1 hx2
    · intro x hx
      have hperm : (bookOrders (OrderBook.update_best_prices
          { b with sequence_number := b.sequence_number + 1,
                   asks := upsertLevel askLT o.price
                     (pushOrder o.price o.quantity { o with id := b.sequence_number + 1 })
                     b.asks })).Perm
          ({ o with id := b.sequence_number + 1 } :: bookOrders b) := by
        simp only [bookOrders, update_best_prices_bids, update_best_prices_asks]
        exact ((hperm_side askLT b.asks).append_left _).trans List.perm_middle
      have hx' := hperm.mem_iff.mp hx
      rw [update_best_prices_seq]
      rcases List.mem_cons.mp hx' with rfl | hx'
      · exact le_refl _
      · exact Nat.le_succ_of_le (hle x hx')
    · exact update_best_prices_best_bid _
    · exact update_best_prices_best_ask _

/-- `cancel_order` preserves well-formedness. -/
theorem bookWF_cancel {b : OrderBook} (hwf : BookWF b) (i : Nat) :
    BookWF (b.cancel_order i) := by
  obtain ⟨hbs, has, hbg, hag, hbp, hap, hnd, hle, hbb, hba⟩ := hwf
  rw [OrderBook.cancel_order]
  cases hrb : removeFromLevels i b.bids with
  | some p =>
      obtain ⟨o, bids'⟩ := p
      show BookWF (OrderBook.update_best_prices { b with bids := bids' })
      have hkeys := keys_sublist_of_remove hrb
      have horders := orders_sublist_of_remove hrb
      have hsub : (bookOrders (OrderBook.update_best_prices { b with bids := bids' })).Sublist
          (bookOrders b) := by
        simp only [bookOrders, update_best_prices_bids, update_best_prices_asks]
        exact horders.append (List.Sublist.refl _)
      refine ⟨?_, has, ?_, hag, ?_, hap, ?_, ?_, ?_, ?_⟩
      · exact bidsSorted_of_keys_sublist hbs hkeys
      · exact levelsP_remove hrb hbg (fun k L os hL hro hos => goodLevel_remove hL hro hos)
      · exact levelsP_remove hrb hbp (fun k L os hL _ _ => hL)
      · exact List.Nodup.sublist (hsub.map Order.id) hnd
      · intro x hx
        exact hle x (hsub.mem hx)
      · exact update_best_prices_best_bid _
      · exact update_best_prices_best_ask _
  | none =>
      cases hra : removeFromLevels i b.asks with
      | some p =>
          obtain ⟨o, asks'⟩ := p
          show BookWF (OrderBook.update_best_prices { b with asks := asks' })
          have hkeys := keys_sublist_of_remove hra
          have horders := orders_sublist_of_remove hra
          have hsub : (bookOrders (OrderBook.update_best_prices { b with asks := asks' })).Sublist
              (bookOrders b) := by
            simp only [bookOrders, update_best_prices_bids, update_best_prices_asks]
            exact (List.Sublist.refl _).append horders
          refine ⟨hbs, ?_, hbg, ?_, hbp, ?_, ?_, ?_, ?_, ?_⟩
          · exact asksSorted_of_keys_sublist has hkeys
          · exact levelsP_remove hra hag (fun k L os hL hro hos => goodLevel_remove hL hro hos)
          · exact levelsP_remove hra hap (fun k L os hL _ _ => hL)
          · exact List.Nodup.sublist (hsub.map Order.id) hnd
          · intro x hx
            exact hle x (hsub.mem hx)
          · exact update_best_prices_best_bid _
          · exact update_best_prices_best_ask _
      | none =>
          exact ⟨hbs, has, hbg, hag, hbp, hap, hnd, hle, hbb, hba⟩

/-- `cancel_order` cannot cross an uncrossed book. -/
theorem notCrossed_cancel {b : OrderBook} (hwf : BookWF b) (hnc : NotCrossed b)
    (i : Nat) : NotCrossed (b.cancel_order i) := by
  rw [OrderBook.cancel_order]
  cases hrb : removeFromLevels i b.bids with
  | some p =>
      obtain ⟨o, bids'⟩ := p
      show NotCrossed (OrderBook.update_best_prices { b with bids := bids' })
      rw [NotCrossed, update_best_prices_bids, update_best_prices_asks]
      by_cases hbe : bids' = []
      · exact Or.inl hbe
      · rcases hnc with hb | ha | hlt
        · rw [hb] at hrb
          simp [removeFromLevels] at hrb
        · exact Or.inr (Or.inl ha)
        · refine Or.inr (Or.inr ?_)
          have hmem : headKey bids' ∈ b.bids.map Prod.fst :=
            (keys_sublist_of_remove hrb).mem (headKey_mem hbe)
          exact lt_of_le_of_lt (key_le_headKey_of_bidsSorted hwf.bidsSorted hmem) hlt
  | none =>
      cases hra : removeFromLevels i b.asks with
      | some p =>
          obtain ⟨o, asks'⟩ := p
          show NotCrossed (OrderBook.update_best_prices { b with asks := asks' })
          rw [NotCrossed, update_best_prices_bids, update_best_prices_asks]
          by_cases hae : asks' = []
          · exact Or.inr (Or.inl hae)
          · rcases hnc with hb | ha | hlt
            · exact Or.inl hb
            · rw [ha] at hra
              simp [removeFromLevels] at hra
            · refine Or.inr (Or.inr ?_)
              have hmem : headKey asks' ∈ b.asks.map Prod.fst :=
                (keys_sublist_of_remove hra).mem (headKey_mem hae)
              exact lt_of_lt_of_le hlt (headKey_le_key_of_asksSorted hwf.asksSorted hmem)
      | none => exact hnc

/-! ## Crossing-step computation lemmas -/

theorem add_order_buy_asks {b : OrderBook} {o : Order}
    (h : o.side = OrderSide.BUY) : (b.add_order o).asks = b.asks := by
  rw [add_order_buy h, update_best_prices_asks]

theorem add_order_sell_bids {b : OrderBook} {o : Order}
    (h : o.side ≠ OrderSide.BUY) : (b.add_order o).bids = b.bids := by
  rw [add_order_sell h, update_best_prices_bids]

theorem add_order_buy_bids {b : OrderBook} {o : Order}
    (h : o.side = OrderSide.BUY) : (b.add_order o).bids =
      upsertLevel bidLT o.price
        (pushOrder o.price o.quantity { o with id := b.sequence_number + 1 }) b.bids := by
  rw [add_order_buy h, update_best_prices_bids]

theorem add_order_sell_asks {b : OrderBook} {o : Order}
    (h : o.side ≠ OrderSide.BUY) : (b.add_order o).asks =
      upsertLevel askLT o.price
        (pushOrder o.price o.quantity { o with id := b.sequence_number + 1 }) b.asks := by
  rw [add_order_sell h, update_best_prices_asks]

theorem add_order_seq (b : OrderBook) (o : Order) :
    (b.add_order o).sequence_number = b.sequence_number + 1 := by
  by_cases h : o.side = OrderSide.BUY
  · rw [add_order_buy h, update_best_prices_seq]
  · rw [add_order_sell h, update_best_prices_seq]

/-- A buy whose addition leaves the bid head at or above the ask head must
have opened a fresh best-bid level holding just the new order. -/
theorem add_buy_crossing_shape {b0 : OrderBook} {o : Order} (hnc : NotCrossed b0)
    (hside : o.side = OrderSide.BUY) (hasksne : b0.asks ≠ [])
    (hcross : headKey b0.asks ≤ headKey (b0.add_order o).bids) :
    (b0.add_order o).bids =
      (o.price, pushOrder o.price o.quantity { o with id := b0.sequence_number + 1 } {})
        :: b0.bids := by
  rw [add_order_buy_bids hside] at hcross ⊢
  cases hb : b0.bids with
  | nil => rw [upsertLevel]
  | cons kv rest =>
      obtain ⟨k', v⟩ := kv
      rw [hb] at hcross
      rcases hnc with h | h | h
      · rw [hb] at h; cases h
      · exact absurd h hasksne
      · rw [hb, headKey] at h
        rw [headKey_upsert_bid] at hcross
        have hk : k' < o.price := by
          by_contra hle
          push_neg at hle
          rw [max_eq_right hle] at hcross
          exact absurd (lt_of_lt_of_le h hcross) (lt_irrefl k')
        exact upsert_cons_head_bid _ hk

/-- A sell whose addition leaves the ask head at or below the bid head must
have opened a fresh best-ask level holding just the new order. -/
theorem add_sell_crossing_shape {b0 : OrderBook} {o : Order} (hnc : NotCrossed b0)
    (hside : o.side ≠ OrderSide.BUY) (hbidsne : b0.bids ≠ [])
    (hcross : headKey (b0.add_order o).asks ≤ headKey b0.bids) :
    (b0.add_order o).asks =
      (o.price, pushOrder o.price o.quantity { o with id := b0.sequence_number + 1 } {})
        :: b0.asks := by
  rw [add_order_sell_asks hside] at hcross ⊢
  cases ha : b0.asks with
  | nil => rw [upsertLevel]
  | cons kv rest =>
      obtain ⟨k', v⟩ := kv
      rw [ha] at hcross
      rcases hnc with h | h | h
      · exact absurd h hbidsne
      · rw [ha] at h; cases h
      · rw [ha, headKey] at h
        rw [headKey_upsert_ask] at hcross
        have hk : o.price < k' := by
          by_contra hle
          push_neg at hle
          rw [min_eq_right hle] at hcross
          exact absurd (lt_of_le_of_lt hcross h) (lt_irrefl k')
        exact upsert_cons_head_ask _ hk

/-- Removing the head order of the head level, explicitly. -/
theorem removeFromLevels_head {k : ℚ} {L : PriceLevel} {rest : Levels}
    {a : Order} {tl : List Order} (hL : L.orders = a :: tl) :
    removeFromLevels a.id ((k, L) :: rest) =
      some (a, if tl.isEmpty then rest else
        (k, { L with total_quantity := L.total_quantity - a.quantity,
                     orders := tl }) :: rest) := by
  rw [removeFromLevels, hL, removeOrder, if_pos rfl]

/-- Cancelling the lone order of the head bid level erases that level. -/
theorem cancel_singleton_bid {b : OrderBook} {k : ℚ} {L : PriceLevel}
    {a : Order} {rest : Levels} (hb : b.bids = (k, L) :: rest)
    (hL : L.orders = [a]) :
    b.cancel_order a.id = OrderBook.update_best_prices { b with bids := rest } := by
  rw [OrderBook.cancel_order, hb, removeFromLevels_head hL]
  rfl

/-- Cancelling the lone order of the head ask level erases that level,
provided no bid order carries the same id (the bid side is scanned first). -/
theorem cancel_singleton_ask {b : OrderBook} {k : ℚ} {L : PriceLevel}
    {a : Order} {r : Levels} (ha : b.asks = (k, L) :: r)
    (hL : L.orders = [a]) (hno : ∀ x ∈ levelOrders b.bids, x.id ≠ a.id) :
    b.cancel_order a.id = OrderBook.update_best_prices { b with asks := r } := by
  rw [OrderBook.cancel_order, removeFromLevels_none_iff.mpr hno, ha,
      removeFromLevels_head hL]
  rfl

/-- Cancelling the head order of the head bid level, explicitly. -/
theorem cancel_head_bid {b : OrderBook} {k : ℚ} {L : PriceLevel}
    {a : Order} {tl : List Order} {rest : Levels} (hb : b.bids = (k, L) :: rest)
    (hL : L.orders = a :: tl) :
    b.cancel_order a.id = OrderBook.update_best_prices
      { b with bids := if tl.isEmpty then rest else
          (k, { L with total_quantity := L.total_quantity - a.quantity,
                       orders := tl }) :: rest } := by
  rw [OrderBook.cancel_order, hb, removeFromLevels_head hL]

/-- After a crossing limit add, cancelling the two head orders (bid head
first, then ask head, exactly as `match_orders` does) restores an uncrossed
book. -/
theorem crossing_cancels_ok {b0 : OrderBook} {o : Order} (hwf : BookWF b0)
    (hnc : NotCrossed b0) (hp : 0 < o.price) (hq : 0 < o.quantity)
    {kb : ℚ} {BL : PriceLevel} {restb : Levels} {ka : ℚ} {AL : PriceLevel}
    {resta : Levels}
    (hbids : (b0.add_order o).bids = (kb, BL) :: restb)
    (hasks : (b0.add_order o).asks = (ka, AL) :: resta)
    (hcross : ka ≤ kb) :
    BookWF (((b0.add_order o).cancel_order BL.orders.headI.id).cancel_order
      AL.orders.headI.id) ∧
    NotCrossed (((b0.add_order o).cancel_order BL.orders.headI.id).cancel_order
      AL.orders.headI.id) := by
  refine ⟨bookWF_cancel (bookWF_cancel (bookWF_add hwf hp hq) _) _, ?_⟩
  by_cases hside : o.side = OrderSide.BUY
  · -- the incoming buy sits alone at the new best bid level
    have hasks0 : b0.asks = (ka, AL) :: resta := by
      rw [← add_order_buy_asks (b := b0) hside, hasks]
    have hshape := add_buy_crossing_shape hnc hside (by rw [hasks0]; simp)
      (by rw [hasks0, hbids, headKey, headKey]; exact hcross)
    have hkb : (kb, BL) = (o.price,
        pushOrder o.price o.quantity { o with id := b0.sequence_number + 1 } {}) := by
      have := hbids.symm.trans hshape
      exact (List.cons.injEq _ _ _ _).mp this |>.1
    have hBL : BL.orders = [{ o with id := b0.sequence_number + 1 }] := by
      have : BL = pushOrder o.price o.quantity
          { o with id := b0.sequence_number + 1 } {} := ((Prod.mk.injEq _ _ _ _).mp hkb).2
      rw [this, pushOrder_orders]
      rfl
    have hhead : BL.orders.headI = { o with id := b0.sequence_number + 1 } := by
      rw [hBL]
      rfl
    rw [hhead]
    have c1_eq := cancel_singleton_bid hshape
      (L := pushOrder o.price o.quantity { o with id := b0.sequence_number + 1 } {})
      (a := { o with id := b0.sequence_number + 1 }) rfl
    rw [c1_eq]
    have hwf1 : BookWF (OrderBook.update_best_prices
        { b0.add_order o with bids := b0.bids }) :=
      c1_eq ▸ bookWF_cancel (bookWF_add hwf hp hq) _
    have hnc1 : NotCrossed (OrderBook.update_best_prices
        { b0.add_order o with bids := b0.bids }) := by
      rw [NotCrossed, update_best_prices_bids, update_best_prices_asks]
      show b0.bids = [] ∨ (b0.add_order o).asks = [] ∨
        headKey b0.bids < headKey (b0.add_order o).asks
      rw [add_order_buy_asks hside]
      exact hnc
    exact notCrossed_cancel hwf1 hnc1 _
  · -- the incoming sell sits alone at the new best ask level
    have hbids0 : b0.bids = (kb, BL) :: restb := by
      rw [← add_order_sell_bids (b := b0) hside, hbids]
    have hshape := add_sell_crossing_shape hnc hside (by rw [hbids0]; simp)
      (by rw [hasks, hbids0, headKey, headKey]; exact hcross)
    have hka : (ka, AL) = (o.price,
        pushOrder o.price o.quantity { o with id := b0.sequence_number + 1 } {}) := by
      have := hasks.symm.trans hshape
      exact (List.cons.injEq _ _ _ _).mp this |>.1
    have hresta : resta = b0.asks := by
      have := hasks.symm.trans hshape
      exact (List.cons.injEq _ _ _ _).mp this |>.2
    have hAL : AL.orders = [{ o with id := b0.sequence_number + 1 }] := by
      have : AL = pushOrder o.price o.quantity
          { o with id := b0.sequence_number + 1 } {} := ((Prod.mk.injEq _ _ _ _).mp hka).2
      rw [this, pushOrder_orders]
      rfl
    have hheadA : AL.orders.headI = { o with id := b0.sequence_number + 1 } := by
      rw [hAL]
      rfl
    -- the head bid level is an old level of b0 with a nonempty order queue
    have hBLmem : (kb, BL) ∈ b0.bids := by rw [hbids0]; exact List.mem_cons_self _ _
    have hBLgood := hwf.bidsGood (kb, BL) hBLmem
    obtain ⟨hBLprice, hBLne, hBLpos, hBLsum⟩ := hBLgood
    cases hBLo : BL.orders with
    | nil => exact absurd hBLo hBLne
    | cons hb tl =>
        have hhb : (hb :: tl).headI = hb := rfl
        rw [hhb, hheadA]
        have hbbids : (b0.add_order o).bids = (kb, BL) :: restb := hbids
        have c1_eq := cancel_head_bid hbbids hBLo
        have hr : removeFromLevels hb.id ((b0.add_order o).bids) =
            some (hb, if tl.isEmpty then restb else
              (kb, { BL with total_quantity := BL.total_quantity - hb.quantity,
                             orders := tl }) :: restb) := by
          rw [hbbids]
          exact removeFromLevels_head hBLo
        rw [c1_eq]
        have hno : ∀ x ∈ levelOrders (if tl.isEmpty then restb else
            (kb, { BL with total_quantity := BL.total_quantity - hb.quantity,
                           orders := tl }) :: restb),
            x.id ≠ { o with id := b0.sequence_number + 1 }.id := by
          intro x hx
          have hx1 : x ∈ levelOrders (b0.add_order o).bids :=
            (orders_sublist_of_remove hr).mem hx
          rw [add_order_sell_bids hside] at hx1
          have hx2 : x ∈ bookOrders b0 := by
            rw [bookOrders, List.mem_append]
            exact Or.inl hx1
          have := hwf.idsLe x hx2
          show x.id ≠ b0.sequence_number + 1
          omega
        have c2_eq := cancel_singleton_ask
          (b := OrderBook.update_best_prices
            { b0.add_order o with bids := if tl.isEmpty then restb else
                (kb, { BL with total_quantity := BL.total_quantity - hb.quantity,
                               orders := tl }) :: restb })
          (k := o.price)
          (L := pushOrder o.price o.quantity { o with id := b0.sequence_number + 1 } {})
          (a := { o with id := b0.sequence_number + 1 })
          (r := b0.asks)
          (by rw [update_best_prices_asks]
              show (b0.add_order o).asks = _
              rw [hshape])
          rfl
          (by rw [update_best_prices_bids]; exact hno)
        rw [c2_eq]
        rw [NotCrossed, update_best_prices_bids, update_best_prices_asks]
        show (if tl.isEmpty then restb else _) = [] ∨ b0.asks = [] ∨
          headKey (if tl.isEmpty then restb else _) < headKey b0.asks
        set bids' := if tl.isEmpty then restb else
          (kb, { BL with total_quantity := BL.total_quantity - hb.quantity,
                         orders := tl }) :: restb with hbids'
        by_cases hbe : bids' = []
        · exact Or.inl hbe
        · by_cases hae : b0.asks = []
          · exact Or.inr (Or.inl hae)
          · refine Or.inr (Or.inr ?_)
            rcases hnc with h | h | h
            · rw [hbids0] at h; cases h
            · exact absurd h hae
            · have hmem : headKey bids' ∈ (b0.add_order o).bids.map Prod.fst := by
                refine (keys_sublist_of_remove hr).mem ?_
                exact headKey_mem hbe
              rw [add_order_sell_bids hside] at hmem
              have hle := key_le_headKey_of_bidsSorted hwf.bidsSorted hmem
              exact lt_of_le_of_lt hle h

/-! ## Engine-level invariant -/

theorem bookWF_init (s : String) : BookWF (OrderBook.init s) := by
  refine ⟨?_, ?_, ?_, ?_, ?_, ?_, ?_, ?_, rfl, rfl⟩ <;>
    simp [OrderBook.init, BidsSorted, AsksSorted, LevelsP, bookOrders, levelOrders]

theorem bookWF_default : BookWF ({} : OrderBook) := bookWF_init ""

theorem notCrossed_init (s : String) : NotCrossed (OrderBook.init s) := Or.inl rfl

theorem notCrossed_default : NotCrossed ({} : OrderBook) := Or.inl rfl

/-- Guard translation: a nonpositive cached best price means that side is
empty, so the book is uncrossed. -/
theorem notCrossed_of_nonpos {b : OrderBook} (hwf : BookWF b)
    (h : b.best_bid ≤ 0 ∨ b.best_ask ≤ 0) : NotCrossed b := by
  rcases h with h | h
  · left
    cases hb : b.bids with
    | nil => rfl
    | cons kv rest =>
        have := hwf.bidsPos kv (by rw [hb]; exact List.mem_cons_self _ _)
        rw [hwf.bestBid, hb, headKey] at h
        exact absurd this (not_lt.mpr h)
  · right; left
    cases hb : b.asks with
    | nil => rfl
    | cons kv rest =>
        have := hwf.asksPos kv (by rw [hb]; exact List.mem_cons_self _ _)
        rw [hwf.bestAsk, hb, headKey] at h
        exact absurd this (not_lt.mpr h)

theorem notCrossed_of_lt {b : OrderBook} (hwf : BookWF b)
    (h : b.best_bid < b.best_ask) : NotCrossed b := by
  right; right
  rw [← hwf.bestBid, ← hwf.bestAsk]
  exact h

/-- A well-formed book's levels have positive aggregated quantity. -/
theorem goodLevel_total_pos {k : ℚ} {L : PriceLevel} (h : GoodLevel k L) :
    0 < L.total_quantity := by
  obtain ⟨_, hne, hpos, hsum⟩ := h
  rw [hsum]
  exact sumQty_pos hne hpos

/-- Membership after `setBook`. -/
theorem setBook_mem {e : MatchingEngine} {s : String} {b : OrderBook}
    {p : String × OrderBook} (hp : p ∈ (e.setBook s b).order_books) :
    p = (s, b) ∨ (p ∈ e.order_books ∧ p.1 ≠ s) := by
  rw [MatchingEngine.setBook] at hp
  simp only [List.mem_map] at hp
  obtain ⟨q, hq, hqe⟩ := hp
  by_cases hqs : q.1 = s
  · rw [if_pos (by simpa using hqs)] at hqe
    exact Or.inl hqe.symm
  · rw [if_neg (by simpa using hqs)] at hqe
    exact Or.inr ⟨hqe ▸ hq, hqe ▸ hqs⟩

theorem setBook_books_keys (e : MatchingEngine) (s : String) (b : OrderBook) :
    (e.setBook s b).order_books.map Prod.fst = e.order_books.map Prod.fst := by
  rw [MatchingEngine.setBook]
  simp only [List.map_map]
  refine List.map_congr_left ?_
  intro p hp
  by_cases hps : p.1 = s
  · simp [hps]
  · simp [hps]

theorem ensureBook_of_present {e : MatchingEngine} {s : String}
    (h : e.order_books.any (fun p => p.1 = s) = true) : e.ensureBook s = e := by
  rw [MatchingEngine.ensureBook, if_pos h]

theorem present_ensureBook (e : MatchingEngine) (s : String) :
    (e.ensureBook s).order_books.any (fun p => p.1 = s) = true := by
  rw [MatchingEngine.ensureBook]
  by_cases h : e.order_books.any (fun p => p.1 = s)
  · rw [if_pos h]; exact h
  · rw [if_neg h]; simp

theorem present_setBook {e : MatchingEngine} {s' : String} {b : OrderBook}
    {s : String} (h : e.order_books.any (fun p => p.1 = s) = true) :
    (e.setBook s' b).order_books.any (fun p => p.1 = s) = true := by
  have hk := setBook_books_keys e s' b
  rw [List.any_eq_true] at h ⊢
  obtain ⟨p, hp, hps⟩ := h
  have : p.1 ∈ (e.setBook s' b).order_books.map Prod.fst := by
    rw [hk]
    exact List.mem_map_of_mem _ hp
  obtain ⟨q, hq, hqe⟩ := List.mem_map.mp this
  exact ⟨q, hq, by rw [hqe]; exact hps⟩

/-- `find?` over the rewrite performed by `setBook`. -/
theorem find?_map_set {books : List (String × OrderBook)} {s : String}
    {b : OrderBook} {p : String × OrderBook} (hp : p ∈ books) (hps : p.1 = s) :
    ((books.map (fun q => if q.1 = s then (s, b) else q)).find?
      (fun q => q.1 = s)) = some (s, b) := by
  induction books with
  | nil => cases hp
  | cons q rest ih =>
      by_cases hqs : q.1 = s
      · simp [List.find?_cons, hqs]
      · rcases List.mem_cons.mp hp with rfl | hp'
        · exact absurd hps hqs
        · simpa [List.find?_cons, hqs] using ih hp'

/-- `getBook` after `setBook` at a present key returns the stored book. -/
theorem getBook_setBook {e : MatchingEngine} {s : String} {b : OrderBook}
    (h : e.order_books.any (fun p => p.1 = s) = true) :
    (e.setBook s b).getBook s = b := by
  rw [List.any_eq_true] at h
  obtain ⟨p, hp, hps⟩ := h
  rw [MatchingEngine.getBook, MatchingEngine.setBook,
      find?_map_set hp (by simpa using hps)]
  rfl

/-- The book found by `getBook` is a member (or the default when absent). -/
theorem getBook_cases (e : MatchingEngine) (s : String) :
    (s, e.getBook s) ∈ e.order_books ∨ e.getBook s = {} := by
  rw [MatchingEngine.getBook]
  cases hf : e.order_books.find? (fun p => p.1 = s) with
  | none => right; rfl
  | some p =>
      left
      have hm := List.mem_of_find?_eq_some hf
      have hp := List.find?_some hf
      have : p.1 = s := by simpa using hp
      rw [Option.map_some']
      show (s, p.2) ∈ e.order_books
      rw [← this]
      simpa using hm

theorem engineInv_getBook {e : MatchingEngine} (he : EngineInv e) (s : String) :
    BookWF (e.getBook s) ∧ NotCrossed (e.getBook s) := by
  rcases getBook_cases e s with h | h
  · exact he _ h
  · rw [h]
    exact ⟨bookWF_default, notCrossed_default⟩

theorem engineInv_ensureBook {e : MatchingEngine} (he : EngineInv e) (s : String) :
    EngineInv (e.ensureBook s) := by
  rw [MatchingEngine.ensureBook]
  by_cases h : e.order_books.any (fun p => p.1 = s)
  · rw [if_pos h]; exact he
  · rw [if_neg h]
    intro p hp
    rcases List.mem_append.mp hp with hp | hp
    · exact he p hp
    · rcases List.mem_singleton.mp hp with rfl
      exact ⟨bookWF_default, notCrossed_default⟩

theorem engineInv_setBook {e : MatchingEngine} (he : EngineInv e) {s : String}
    {b : OrderBook} (hb : BookWF b) (hnb : NotCrossed b) :
    EngineInv (e.setBook s b) := by
  intro p hp
  rcases setBook_mem hp with rfl | ⟨hp, _⟩
  · exact ⟨hb, hnb⟩
  · exact he p hp

/-- `match_orders` restores the engine invariant on the symbol whose book
just received a well-priced limit order. -/
theorem engineInv_match_after_add {e : MatchingEngine} {s : String}
    {b0 : OrderBook} {o : Order}
    (hinv : ∀ p ∈ e.order_books, p.1 ≠ s → BookWF p.2 ∧ NotCrossed p.2)
    (hb0 : BookWF b0) (hnc0 : NotCrossed b0) (hp : 0 < o.price)
    (hq : 0 < o.quantity)
    (hbook : e.getBook s = b0.add_order o)
    (hall : ∀ p ∈ e.order_books, p.1 = s → p.2 = b0.add_order o)
    (hpresent : e.order_books.any (fun p => p.1 = s) = true) :
    EngineInv (e.match_orders s) := by
  have hwfb : BookWF (b0.add_order o) := bookWF_add hb0 hp hq
  have hmem : NotCrossed (b0.add_order o) → EngineInv e := by
    intro hncb p hpm
    by_cases hps : p.1 = s
    · rw [hall p hpm hps]
      exact ⟨hwfb, hncb⟩
    · exact hinv p hpm hps
  rw [MatchingEngine.match_orders]
  simp only [ensureBook_of_present hpresent, hbook]
  by_cases h1 : (b0.add_order o).best_bid ≤ 0 ∨ (b0.add_order o).best_ask ≤ 0
  · rw [if_pos h1]
    exact hmem (notCrossed_of_nonpos hwfb h1)
  · rw [if_neg h1]
    by_cases h2 : (b0.add_order o).best_bid ≥ (b0.add_order o).best_ask
    · rw [if_pos h2]
      split
      · rename_i kb BL restb ka AL resta hbb hba
        have hBL : GoodLevel kb BL :=
          hwfb.bidsGood (kb, BL) (by rw [hbb]; exact List.mem_cons_self _ _)
        have hAL : GoodLevel ka AL :=
          hwfb.asksGood (ka, AL) (by rw [hba]; exact List.mem_cons_self _ _)
        have hmq : 0 < min BL.total_quantity AL.total_quantity :=
          lt_min (goodLevel_total_pos hBL) (goodLevel_total_pos hAL)
        rw [if_pos hmq]
        have hcross : ka ≤ kb := by
          have hb' := hwfb.bestBid
          have ha' := hwfb.bestAsk
          rw [hbb, headKey] at hb'
          rw [hba, headKey] at ha'
          rw [hb', ha'] at h2
          exact h2
        obtain ⟨hwf2, hnc2⟩ :=
          crossing_cancels_ok hb0 hnc0 hp hq hbb hba hcross
        intro p hpm
        have hpm' : p ∈ (e.setBook s
            (((b0.add_order o).cancel_order BL.orders.headI.id).cancel_order
              AL.orders.headI.id)).order_books := hpm
        rcases setBook_mem hpm' with rfl | ⟨hpm'', hps⟩
        · exact ⟨hwf2, hnc2⟩
        · exact hinv p hpm'' hps
      · rename_i x y hxy
        cases hx : (b0.add_order o).bids with
        | nil => exact hmem (Or.inl hx)
        | cons a as =>
            cases hy : (b0.add_order o).asks with
            | nil => exact hmem (Or.inr (Or.inl hy))
            | cons c cs => exact (hxy a.1 a.2 as c.1 c.2 cs hx hy).elim
    · rw [if_neg h2]
      exact hmem (notCrossed_of_lt hwfb (not_le.mp h2))

/-- Market-order processing preserves the engine invariant (it only ever
cancels a resting order). -/
theorem engineInv_process_market {e : MatchingEngine} (he : EngineInv e)
    (o : Order) : EngineInv (e.process_market_order o) := by
  have he1 := engineInv_ensureBook he o.symbol
  obtain ⟨hwfb, hncb⟩ := engineInv_getBook he1 o.symbol
  rw [MatchingEngine.process_market_order]
  dsimp only
  repeat' split
  all_goals
    first
      | exact he1
      | (intro p hp
         rcases setBook_mem hp with rfl | ⟨hp', hps⟩
         · exact ⟨hwfb, hncb⟩
         · exact he1 p hp')
      | (intro p hp
         rcases setBook_mem hp with rfl | ⟨hp', hps⟩
         · exact ⟨bookWF_cancel hwfb _, notCrossed_cancel hwfb hncb _⟩
         · exact he1 p hp')

/-- Processing any good intent preserves the engine invariant. -/
theorem engineInv_process_order {e : MatchingEngine} (he : EngineInv e)
    {o : Order} (hg : GoodIntent o) : EngineInv (e.process_order o) := by
  rw [MatchingEngine.process_order]
  by_cases ht : o.type = OrderType.MARKET
  · rw [if_pos ht]
    exact engineInv_process_market he o
  · rw [if_neg ht]
    have he1 := engineInv_ensureBook he o.symbol
    obtain ⟨hwfb, hncb⟩ := engineInv_getBook he1 o.symbol
    obtain ⟨hp, hq⟩ : 0 < o.price ∧ 0 < o.quantity := by
      rcases hg with hg | hg
      · exact absurd hg ht
      · exact hg
    have hpres1 := present_ensureBook e o.symbol
    refine engineInv_match_after_add ?_ hwfb hncb hp hq ?_ ?_ ?_
    · intro p hpm hps
      rcases setBook_mem hpm with rfl | ⟨hpm', _⟩
      · exact absurd rfl hps
      · exact he1 p hpm'
    · exact getBook_setBook hpres1
    · intro p hpm hps
      rcases setBook_mem hpm with rfl | ⟨_, hps'⟩
      · rfl
      · exact absurd hps hps'
    · exact present_setBook hpres1

/-- Every reachable engine state satisfies the invariant. -/
theorem engineReach_inv {e : MatchingEngine} (h : EngineReach e) : EngineInv e := by
  induction h with
  | init => intro p hp; cases hp
  | add_symbol e s _ ih =>
      rw [MatchingEngine.add_symbol]
      by_cases hpr : e.order_books.any (fun p => p.1 = s)
      · rw [if_pos hpr]; exact ih
      · rw [if_neg hpr]
        intro p hp
        rcases List.mem_append.mp hp with hp | hp
        · exact ih p hp
        · rcases List.mem_singleton.mp hp with rfl
          exact ⟨bookWF_init s, notCrossed_init s⟩
  | submit e o _ ih => exact fun p hp => ih p hp
  | cancel e i t _ ih => exact fun p hp => ih p hp
  | modify e i pr q t _ ih => exact fun p hp => ih p hp
  | step e o _ hg ih => exact engineInv_process_order ih hg

/-! ## C1 -/

/-- C1, counterexample: the claim as stated is false.  `engineWithSell` is a
reachable engine state (empty engine, register "S", process SELL 10 @ 100);
the engine then processes the zero-quantity limit intent BUY 0 @ 105 to
completion, and the resulting book is crossed: `best_bid = 105 > best_ask
= 100`, with neither cached best price 0.  (`match_orders` skips the cancel
step because the matchable quantity is `min 0 10 = 0`.) -/
theorem C1_counterexample :
    EngineReach engineWithSell ∧
    ((engineWithSell.process_order zeroQtyBuy).getBook "S").best_bid = 105 ∧
    ((engineWithSell.process_order zeroQtyBuy).getBook "S").best_ask = 100 ∧
    ¬ (((engineWithSell.process_order zeroQtyBuy).getBook "S").best_bid <
         ((engineWithSell.process_order zeroQtyBuy).getBook "S").best_ask ∨
       ((engineWithSell.process_order zeroQtyBuy).getBook "S").best_bid = 0 ∨
       ((engineWithSell.process_order zeroQtyBuy).getBook "S").best_ask = 0) := by
  refine ⟨EngineReach.step _ _ (EngineReach.add_symbol _ _ EngineReach.init)
    (Or.inr ⟨by decide, by decide⟩), ?_, ?_, ?_⟩ <;> decide

/-- C1 (amended): for every reachable engine state and every intent that is a
market order or has positive price and positive quantity, after the engine
processes it to completion every owned book is uncrossed:
`best_bid < best_ask`, or one side is empty (its cached best price is 0). -/
theorem C1_no_crossed_book_after_good_intent (e : MatchingEngine)
    (he : EngineReach e) (o : Order) (hg : GoodIntent o) (s : String)
    (b : OrderBook) (hb : (s, b) ∈ (e.process_order o).order_books) :
    b.best_bid < b.best_ask ∨ b.best_bid = 0 ∨ b.best_ask = 0 := by
  obtain ⟨hwf, hnc⟩ := engineInv_process_order (engineReach_inv he) hg (s, b) hb
  rcases hnc with h | h | h
  · right; left
    rw [hwf.bestBid, h]
    rfl
  · right; right
    rw [hwf.bestAsk, h]
    rfl
  · left
    rw [hwf.bestBid, hwf.bestAsk]
    exact h

/-- C1, witness: the amended theorem applied to the reachable one-sell engine
and the crossing intent BUY 5 @ 100 (which fully matches and leaves both
sides empty). -/
theorem C1_no_crossed_book_witness :
    ((engineWithSell.process_order crossingBuy).getBook "S").best_bid <
        ((engineWithSell.process_order crossingBuy).getBook "S").best_ask ∨
      ((engineWithSell.process_order crossingBuy).getBook "S").best_bid = 0 ∨
      ((engineWithSell.process_order crossingBuy).getBook "S").best_ask = 0 :=
  C1_no_crossed_book_after_good_intent engineWithSell
    (EngineReach.step _ _ (EngineReach.add_symbol _ _ EngineReach.init)
      (Or.inr ⟨by decide, by decide⟩))
    crossingBuy (Or.inr ⟨by decide, by decide⟩) "S" _ (by
      have h : (engineWithSell.process_order crossingBuy).order_books =
          [("S", (engineWithSell.process_order crossingBuy).getBook "S")] := by
        rfl
      rw [h]
      exact List.mem_singleton.mpr rfl)

/-! ## C3 -/

/-- C3, counterexample: the claim as stated is false.  `engineWithSell` is a
reachable engine whose submission queue is empty and whose book for "S" holds
a resting order (id 1, trader "A"); the claim requires `cancel_order(1,"A")`
to return `true` (found resting in a book), but the source only scans the
submission queue and returns `false`. -/
theorem C3_counterexample :
    EngineReach engineWithSell ∧
    engineWithSell.order_queue = [] ∧
    (∃ p ∈ engineWithSell.order_books, ∃ kL ∈ p.2.asks, ∃ o ∈ kL.2.orders,
      o.id = 1 ∧ o.trader_id = "A") ∧
    (engineWithSell.cancel_order 1 "A").1 = false := by
  refine ⟨EngineReach.step _ _ (EngineReach.add_symbol _ _ EngineReach.init)
    (Or.inr ⟨by decide, by decide⟩), ?_, ?_, ?_⟩ <;> decide

/-- C3 (amended): `MatchingEngine::cancel_order(id, trader_id)` returns true
iff an order with that id and trader id is still in the submission queue
(every such entry is removed); orders resting in a book are never searched
and never removed, so for them it returns false. -/
theorem C3_cancel_scans_queue_only (e : MatchingEngine) (oid : Nat)
    (tid : String) :
    ((e.cancel_order oid tid).1 = true ↔
      ∃ o ∈ e.order_queue, o.id = oid ∧ o.trader_id = tid) ∧
    (e.cancel_order oid tid).2.order_books = e.order_books := by
  constructor
  · rw [MatchingEngine.cancel_order]
    simp [List.any_eq_true]
  · rfl

/-! ## C4 -/

/-- The id returned by `place_order`, isolated. -/
theorem place_order_fst (m : OrderManager) (o : Order) :
    (m.place_order o).1 =
      if m.check_risk_limits o then m.engine.order_id_counter + 1 else 0 := by
  rw [OrderManager.place_order]
  by_cases h : m.check_risk_limits o
  · rw [if_neg (by simpa using h), if_pos h]
    dsimp only [MatchingEngine.submit_order]
    split <;> rfl
  · rw [if_pos (by simpa using h), if_neg h]

/-- C4, counterexample: the claim as stated is false.  On a fresh
`OrderManager` with the default `RiskLimits` (`max_position_value` = 10^6),
the order BUY 100 @ 20000 has notional 2·10^6 > max_position_value, yet
`place_order` submits it and returns id 1, not 0: the source never checks
the notional limit. -/
theorem C4_counterexample :
    bigNotionalOrder.quantity = 100 ∧
    bigNotionalOrder.price * 100 >
      ({} : OrderManager).risk_limits.max_position_value ∧
    (({} : OrderManager).place_order bigNotionalOrder).1 = 1 ∧
    (({} : OrderManager).place_order bigNotionalOrder).2.engine.order_queue ≠ [] := by
  refine ⟨by decide, ?_, by decide, by decide⟩
  show (20000 : ℚ) * 100 > 1000000
  norm_num

/-- C4 (amended): `place_order` returns 0 exactly when the position-size
check (`|projected position| ≤ max_order_size`) or the daily-loss check
fails; the notional value `price × quantity` is never compared with
`max_position_value`, so notional-violating orders are submitted whenever
those two checks pass. -/
theorem C4_no_notional_check (m : OrderManager) (o : Order) :
    (m.place_order o).1 = 0 ↔
      (m.check_position_limits o = false ∨ m.check_daily_loss_limit o = false) := by
  rw [place_order_fst]
  by_cases h : m.check_risk_limits o
  · rw [if_pos h]
    rw [OrderManager.check_risk_limits, Bool.and_eq_true] at h
    constructor
    · intro h0
      exact absurd h0 (Nat.succ_ne_zero _)
    · intro hor
      rcases hor with h1 | h1
      · rw [h.1] at h1; cases h1
      · rw [h.2] at h1; cases h1
  · rw [if_neg h]
    rw [OrderManager.check_risk_limits, Bool.and_eq_true] at h
    constructor
    · intro _
      rcases Bool.eq_false_or_eq_true (m.check_position_limits o) with h1 | h1
      · right
        rcases Bool.eq_false_or_eq_true (m.check_daily_loss_limit o) with h2 | h2
        · exact absurd ⟨h1, h2⟩ h
        · exact h2
      · exact Or.inl h1
    · intro _
      rfl

/-! ## C6 -/

/-- C6: the claim is contradicted by the code.  `on_execution` only updates
the position map and forwards the record; `daily_pnl_`, `max_drawdown_` and
`peak_equity_` are never written (`update_drawdown` is defined but never
called), so the counters returned by `get_daily_pnl()` and
`get_max_drawdown()` are unchanged by every execution. -/
theorem C6_pnl_counters_never_updated (m : OrderManager) (ex : Execution) :
    (m.on_execution ex).daily_pnl = m.daily_pnl ∧
    (m.on_execution ex).max_drawdown = m.max_drawdown ∧
    (m.on_execution ex).peak_equity = m.peak_equity := by
  rw [OrderManager.on_execution, OrderManager.update_position]
  dsimp only
  split <;> exact ⟨rfl, rfl, rfl⟩

/-! ## C9 -/

/-- C9: when a risk check fails, `place_order` returns 0 and the entire
manager state — active-order index, engine (hence all books), and positions —
is exactly its pre-call value. -/
theorem C9_risk_rejection_no_state (m : OrderManager) (o : Order)
    (h : m.check_risk_limits o = false) : m.place_order o = (0, m) := by
  rw [OrderManager.place_order, if_pos]
  rw [h]
  exact Bool.false_ne_true

/-- C9, witness: the oversized order is rejected on a fresh manager and the
state is unchanged. -/
theorem C9_risk_rejection_no_state_witness :
    ({} : OrderManager).check_risk_limits oversizedOrder = false ∧
    ({} : OrderManager).place_order oversizedOrder = (0, ({} : OrderManager)) :=
  ⟨by decide, C9_risk_rejection_no_state {} oversizedOrder (by decide)⟩

/-! ## C5 -/

theorem ensureBook_executions (e : MatchingEngine) (s : String) :
    (e.ensureBook s).executions = e.executions := by
  rw [MatchingEngine.ensureBook]
  split <;> rfl

theorem ensureBook_exec_counter (e : MatchingEngine) (s : String) :
    (e.ensureBook s).execution_id_counter = e.execution_id_counter := by
  rw [MatchingEngine.ensureBook]
  split <;> rfl

theorem setBook_executions (e : MatchingEngine) (s : String) (b : OrderBook) :
    (e.setBook s b).executions = e.executions := rfl

theorem setBook_exec_counter (e : MatchingEngine) (s : String) (b : OrderBook) :
    (e.setBook s b).execution_id_counter = e.execution_id_counter := rfl

/-- C5, counterexample: the claim as stated is false.  In the reachable S1
scenario the single execution emitted for the limit-limit cross carries
`order_id = 0` and an empty `trader_id` — not the taker's id 7 and trader
"B": `match_orders` never sets those fields. -/
theorem C5_counterexample :
    EngineReach s1Engine ∧
    s1Engine.executions.length = 1 ∧
    s1Engine.executions.headI.order_id = 0 ∧
    s1Engine.executions.headI.order_id ≠ s1Taker.id ∧
    s1Engine.executions.headI.trader_id = "" ∧
    s1Engine.executions.headI.trader_id ≠ s1Taker.trader_id := by
  refine ⟨EngineReach.step _ _ (EngineReach.step _ _
    (EngineReach.add_symbol _ _ EngineReach.init)
    (Or.inr ⟨by decide, by decide⟩)) (Or.inr ⟨by decide, by decide⟩),
    ?_, ?_, ?_, ?_, ?_⟩ <;> decide

/-- C5 (amended): every execution emitted by `match_orders` (the limit-limit
crossing path) leaves `order_id` at 0 and `trader_id` empty — the source
builds the record from the default constructor and fills in only
`execution_id`, `symbol`, `price` and `quantity`, never tagging the taker. -/
theorem C5_match_execution_untagged (e : MatchingEngine) (s : String)
    (ex : Execution) (hex : ex ∈ (e.match_orders s).executions) :
    ex ∈ e.executions ∨ (ex.order_id = 0 ∧ ex.trader_id = "") := by
  rw [MatchingEngine.match_orders] at hex
  dsimp only at hex
  have hexe : (e.ensureBook s).executions = e.executions := ensureBook_executions e s
  split at hex
  · exact Or.inl (hexe ▸ hex)
  · split at hex
    · split at hex
      · split at hex
        · rw [List.mem_append] at hex
          rcases hex with hex | hex
          · exact Or.inl (hexe ▸ hex)
          · rcases List.mem_singleton.mp hex with rfl
            exact Or.inr ⟨rfl, rfl⟩
        · exact Or.inl (hexe ▸ hex)
      · exact Or.inl (hexe ▸ hex)
    · exact Or.inl (hexe ▸ hex)

/-- C5, witness: the execution emitted by running `match_orders` on the
crossed book is untagged. -/
theorem C5_match_execution_untagged_witness :
    (c5Engine.match_orders "S").executions.headI ∈ c5Engine.executions ∨
    ((c5Engine.match_orders "S").executions.headI.order_id = 0 ∧
     (c5Engine.match_orders "S").executions.headI.trader_id = "") :=
  C5_match_execution_untagged c5Engine "S" _ (by
    cases hl : (c5Engine.match_orders "S").executions with
    | nil =>
        have h : (c5Engine.match_orders "S").executions.length = 1 := by decide
        rw [hl] at h
        cases h
    | cons a t =>
        rw [List.headI_cons]
        exact List.mem_cons_self _ _)

/-! ## C2 -/

/-- C2, counterexample: the claim as stated is false.  On the S3 book
(opposite-side total 90), MARKET BUY 60 should execute min(60, 90) = 60; the
source emits a single execution of quantity min(60, best-level total 10) =
10 and stops after the best level. -/
theorem C2_counterexample :
    EngineReach s3Engine ∧
    sumQty (levelOrders (s3Engine.getBook "S").asks) = 90 ∧
    marketBuy60.quantity = 60 ∧
    ((s3Engine.process_order marketBuy60).executions.map Execution.quantity).sum
      = 10 ∧
    ((s3Engine.process_order marketBuy60).executions.map Execution.quantity).sum
      ≠ min marketBuy60.quantity (sumQty (levelOrders (s3Engine.getBook "S").asks)) := by
  refine ⟨EngineReach.step _ _ (EngineReach.step _ _ (EngineReach.step _ _
    (EngineReach.add_symbol _ _ EngineReach.init)
    (Or.inr ⟨by decide, by decide⟩)) (Or.inr ⟨by decide, by decide⟩))
    (Or.inr ⟨by decide, by decide⟩), ?_, ?_, ?_, ?_⟩ <;> decide

/-- C2 (amended): a market order of either side inspects only the single
best level of the opposite side: it emits exactly one execution, of quantity
`min(order.quantity, best_level.total_quantity)` at the cached opposite best
price, removes only the head order of that level, and drops the rest of the
order — deeper levels are never touched. -/
theorem C2_market_order_single_level (e : MatchingEngine) (o : Order)
    (k : ℚ) (L : PriceLevel) (rest : Levels)
    (hpos : 0 < oppositeBest ((e.ensureBook o.symbol).getBook o.symbol) o.side)
    (hlv : oppositeLevels ((e.ensureBook o.symbol).getBook o.symbol) o.side
      = (k, L) :: rest)
    (hq : 0 < min o.quantity L.total_quantity) :
    (e.process_market_order o).executions =
      e.executions ++
        [{ order_id := o.id, execution_id := e.execution_id_counter + 1,
           symbol := o.symbol, side := o.side,
           price := oppositeBest ((e.ensureBook o.symbol).getBook o.symbol) o.side,
           quantity := min o.quantity L.total_quantity,
           trader_id := o.trader_id }] ∧
    (e.process_market_order o).order_books =
      ((e.ensureBook o.symbol).setBook o.symbol
        (if L.orders.isEmpty then (e.ensureBook o.symbol).getBook o.symbol
         else ((e.ensureBook o.symbol).getBook o.symbol).cancel_order
           L.orders.headI.id)).order_books := by
  rw [MatchingEngine.process_market_order]
  dsimp only
  cases hside : o.side with
  | BUY =>
      rw [hside] at hpos hlv
      simp only [oppositeBest] at hpos
      simp only [oppositeLevels] at hlv
      simp only [oppositeBest]
      rw [if_pos hpos, hlv]
      dsimp only
      rw [if_pos hq]
      dsimp only
      constructor
      · rw [setBook_executions, ensureBook_executions, ensureBook_exec_counter]
      · rfl
  | SELL =>
      rw [hside] at hpos hlv
      simp only [oppositeBest] at hpos
      simp only [oppositeLevels] at hlv
      simp only [oppositeBest]
      rw [if_pos hpos, hlv]
      dsimp only
      rw [if_pos hq]
      dsimp only
      constructor
      · rw [setBook_executions, ensureBook_executions, ensureBook_exec_counter]
      · rfl

/-- C2, witness: the amended theorem exercised on both sides — MARKET BUY 4
against the one-sell engine and MARKET SELL 4 against the one-buy engine. -/
theorem C2_market_order_single_level_witness :
    ((engineWithSell.process_market_order marketBuy4).executions =
      engineWithSell.executions ++
        [{ order_id := marketBuy4.id,
           execution_id := engineWithSell.execution_id_counter + 1,
           symbol := marketBuy4.symbol, side := marketBuy4.side,
           price := oppositeBest ((engineWithSell.ensureBook
             marketBuy4.symbol).getBook marketBuy4.symbol) marketBuy4.side,
           quantity := min marketBuy4.quantity askLevel100.total_quantity,
           trader_id := marketBuy4.trader_id }] ∧
     (engineWithSell.process_market_order marketBuy4).order_books =
      ((engineWithSell.ensureBook marketBuy4.symbol).setBook marketBuy4.symbol
        (if askLevel100.orders.isEmpty then
          (engineWithSell.ensureBook marketBuy4.symbol).getBook marketBuy4.symbol
         else ((engineWithSell.ensureBook marketBuy4.symbol).getBook
           marketBuy4.symbol).cancel_order
             askLevel100.orders.headI.id)).order_books) ∧
    ((engineWithBuy.process_market_order marketSell4).executions =
      engineWithBuy.executions ++
        [{ order_id := marketSell4.id,
           execution_id := engineWithBuy.execution_id_counter + 1,
           symbol := marketSell4.symbol, side := marketSell4.side,
           price := oppositeBest ((engineWithBuy.ensureBook
             marketSell4.symbol).getBook marketSell4.symbol) marketSell4.side,
           quantity := min marketSell4.quantity bidLevel100.total_quantity,
           trader_id := marketSell4.trader_id }] ∧
     (engineWithBuy.process_market_order marketSell4).order_books =
      ((engineWithBuy.ensureBook marketSell4.symbol).setBook marketSell4.symbol
        (if bidLevel100.orders.isEmpty then
          (engineWithBuy.ensureBook marketSell4.symbol).getBook marketSell4.symbol
         else ((engineWithBuy.ensureBook marketSell4.symbol).getBook
           marketSell4.symbol).cancel_order
             bidLevel100.orders.headI.id)).order_books) :=
  ⟨C2_market_order_single_level engineWithSell marketBuy4
      100 askLevel100 [] (by decide) (by decide) (by decide),
   C2_market_order_single_level engineWithBuy marketSell4
      100 bidLevel100 [] (by decide) (by decide) (by decide)⟩

/-! ## C7 -/

theorem cleanLevel_push {o : Order} {a : Order} (hq : 0 < a.quantity)
    (hf : a.filled_quantity = 0) (hqa : a.quantity = o.quantity) :
    CleanLevel o.price (pushOrder o.price o.quantity a {}) ∧
    ∀ L, CleanLevel o.price L →
      CleanLevel o.price (pushOrder o.price o.quantity a L) := by
  constructor
  · refine ⟨by simp [pushOrder], ?_, ?_⟩
    · intro x hx
      simp only [pushOrder, List.nil_append, List.mem_singleton] at hx
      subst hx
      exact ⟨hq, hf⟩
    · simp [pushOrder, sumQty, hqa]
  · intro L hL
    obtain ⟨hne, hmem, hsum⟩ := hL
    refine ⟨by simp [pushOrder], ?_, ?_⟩
    · intro x hx
      simp only [pushOrder, List.mem_append, List.mem_singleton] at hx
      rcases hx with hx | rfl
      · exact hmem x hx
      · exact ⟨hq, hf⟩
    · simp only [pushOrder, sumQty_append, ← hsum]
      simp [sumQty, hqa]

theorem cleanLevel_remove {oid : Nat} {k : ℚ} {L : PriceLevel} {o : Order}
    {os : List Order} (hL : CleanLevel k L)
    (hr : removeOrder oid L.orders = some (o, os)) (hos : os ≠ []) :
    CleanLevel k { L with total_quantity := L.total_quantity - o.quantity,
                          orders := os } := by
  obtain ⟨hne, hmem, hsum⟩ := hL
  obtain ⟨pre, post, hlo, hosr, hid, hpre⟩ := removeOrder_some_spec hr
  refine ⟨hos, ?_, ?_⟩
  · intro x hx
    refine hmem x ?_
    rw [hlo]
    rw [hosr, List.mem_append] at hx
    rcases hx with hx | hx
    · exact List.mem_append.mpr (Or.inl hx)
    · exact List.mem_append.mpr (Or.inr (List.mem_cons_of_mem _ hx))
  · show L.total_quantity - o.quantity = sumQty os
    rw [hsum, hlo, hosr, sumQty_append, sumQty_append, sumQty_cons]
    omega

theorem cleanBook_add {b : OrderBook} {o : Order} (h : CleanBook b)
    (hq : 0 < o.quantity) (hf : o.filled_quantity = 0) :
    CleanBook (b.add_order o) := by
  obtain ⟨hb, ha⟩ := h
  have hpush := cleanLevel_push (a := { o with id := b.sequence_number + 1 })
    (o := o) hq hf rfl
  by_cases hside : o.side = OrderSide.BUY
  · rw [add_order_buy hside]
    exact ⟨levelsP_upsert hb hpush.1 hpush.2, ha⟩
  · rw [add_order_sell hside]
    exact ⟨hb, levelsP_upsert ha hpush.1 hpush.2⟩

theorem cleanBook_cancel {b : OrderBook} (h : CleanBook b) (i : Nat) :
    CleanBook (b.cancel_order i) := by
  obtain ⟨hb, ha⟩ := h
  rw [OrderBook.cancel_order]
  cases hrb : removeFromLevels i b.bids with
  | some pr =>
      obtain ⟨o, bids'⟩ := pr
      exact ⟨levelsP_remove hrb hb
        (fun k L os hL hro hos => cleanLevel_remove hL hro hos), ha⟩
  | none =>
      cases hra : removeFromLevels i b.asks with
      | some pr =>
          obtain ⟨o, asks'⟩ := pr
          exact ⟨hb, levelsP_remove hra ha
            (fun k L os hL hro hos => cleanLevel_remove hL hro hos)⟩
      | none => exact ⟨hb, ha⟩

/-- The order removed by the modify scan was resting, hence unfilled with
positive quantity. -/
theorem removed_order_clean {i : Nat} {ls : Levels} {o : Order} {ls' : Levels}
    (h : removeFromLevels i ls = some (o, ls')) (hls : LevelsP CleanLevel ls) :
    0 < o.quantity ∧ o.filled_quantity = 0 := by
  obtain ⟨pre, post, kk, L, os, hl, hr, _, _⟩ := removeFromLevels_some_spec h
  obtain ⟨p1, p2, hlo, _, _, _⟩ := removeOrder_some_spec hr
  have hL : CleanLevel kk L := hls (kk, L) (by rw [hl]; simp)
  exact hL.2.1 o (by rw [hlo]; simp)

theorem cleanBook_modify {b : OrderBook} {i : Nat} {p : ℚ} {q : Nat}
    (h : CleanBook b) (hq : 0 < q) :
    CleanBook (b.modify_order_unlocked i p q) := by
  obtain ⟨hb, ha⟩ := h
  rw [OrderBook.modify_order_unlocked]
  cases hrb : removeFromLevels i b.bids with
  | some pr =>
      obtain ⟨o, bids'⟩ := pr
      have hclean := removed_order_clean hrb hb
      refine cleanBook_add (b := { b with bids := bids' }) ?_ hq hclean.2
      exact ⟨levelsP_remove hrb hb
        (fun k L os hL hro hos => cleanLevel_remove hL hro hos), ha⟩
  | none =>
      cases hra : removeFromLevels i b.asks with
      | some pr =>
          obtain ⟨o, asks'⟩ := pr
          have hclean := removed_order_clean hra ha
          refine cleanBook_add (b := { b with asks := asks' }) ?_ hq hclean.2
          exact ⟨hb, levelsP_remove hra ha
            (fun k L os hL hro hos => cleanLevel_remove hL hro hos)⟩
      | none => exact ⟨hb, ha⟩

theorem bookReachClean_invariant {b : OrderBook} (h : BookReachClean b) :
    CleanBook b := by
  induction h with
  | init s => exact ⟨fun kL hkL => absurd hkL (by simp [OrderBook.init]),
      fun kL hkL => absurd hkL (by simp [OrderBook.init])⟩
  | add b o _ hq hf ih => exact cleanBook_add ih hq hf
  | cancel b i _ ih => exact cleanBook_cancel ih i
  | modify b i p q _ hq ih => exact cleanBook_modify ih hq

/-- C7, counterexample: the claim as stated is false.  `add_order` adds the
full `order.quantity` to the level's `total_quantity` regardless of
`filled_quantity`, so after adding an order with quantity 10 and
filled_quantity 5 the (reachable) book's only level has `total_quantity` 10
while the sum of per-order remainders is 5. -/
theorem C7_counterexample :
    (((OrderBook.init "S").add_order filledOrder).bids.map (fun kL =>
      (kL.2.total_quantity,
       (kL.2.orders.map (fun o => o.quantity - o.filled_quantity)).sum)))
      = [(10, 5)] ∧ (10 : Nat) ≠ 5 := by
  exact ⟨by decide, by decide⟩

/-- C7 (amended): in every book state reachable through `add_order`,
`cancel_order` and `modify_order` where each added order is unfilled
(`filled_quantity = 0`) with positive quantity and each modify supplies a
positive new quantity, every price level satisfies `total_quantity =
Σ (quantity − filled_quantity)` and `total_quantity > 0`. -/
theorem C7_level_quantity_conservation (b : OrderBook) (h : BookReachClean b) :
    ∀ kL ∈ b.bids ++ b.asks,
      kL.2.total_quantity =
        (kL.2.orders.map (fun o => o.quantity - o.filled_quantity)).sum ∧
      0 < kL.2.total_quantity := by
  obtain ⟨hb, ha⟩ := bookReachClean_invariant h
  intro kL hkL
  have hc : CleanLevel kL.1 kL.2 := by
    rcases List.mem_append.mp hkL with hkL | hkL
    · exact hb kL hkL
    · exact ha kL hkL
  obtain ⟨hne, hmem, hsum⟩ := hc
  constructor
  · rw [hsum, sumQty]
    congr 1
    refine List.map_congr_left ?_
    intro o ho
    rw [(hmem o ho).2, Nat.sub_zero]
  · rw [hsum]
    exact sumQty_pos hne (fun o ho => (hmem o ho).1)

/-- C7, witness: the amended theorem applied to the book holding one clean
order and its single price level. -/
theorem C7_level_quantity_conservation_witness :
    c7Level.2.total_quantity =
      (c7Level.2.orders.map (fun o => o.quantity - o.filled_quantity)).sum ∧
    0 < c7Level.2.total_quantity :=
  C7_level_quantity_conservation ((OrderBook.init "S").add_order cleanBuy)
    (BookReachClean.add (OrderBook.init "S") cleanBuy (BookReachClean.init "S")
      (by decide) (by decide))
    c7Level (by
      have h : ((OrderBook.init "S").add_order cleanBuy).bids ++
          ((OrderBook.init "S").add_order cleanBuy).asks = [c7Level] := rfl
      rw [h]
      exact List.mem_singleton.mpr rfl)

/-! ## C10 -/

theorem nonemptyLevels_add {b : OrderBook} (h : NonemptyLevels b) (o : Order) :
    NonemptyLevels (b.add_order o) := by
  obtain ⟨hb, ha⟩ := h
  by_cases hside : o.side = OrderSide.BUY
  · rw [add_order_buy hside]
    exact ⟨levelsP_upsert hb (by simp [pushOrder]) (fun L _ => by simp [pushOrder]), ha⟩
  · rw [add_order_sell hside]
    exact ⟨hb, levelsP_upsert ha (by simp [pushOrder]) (fun L _ => by simp [pushOrder])⟩

theorem nonemptyLevels_cancel {b : OrderBook} (h : NonemptyLevels b) (i : Nat) :
    NonemptyLevels (b.cancel_order i) := by
  obtain ⟨hb, ha⟩ := h
  rw [OrderBook.cancel_order]
  cases hrb : removeFromLevels i b.bids with
  | some pr =>
      obtain ⟨o, bids'⟩ := pr
      exact ⟨levelsP_remove hrb hb (fun k L os _ _ hos => hos), ha⟩
  | none =>
      cases hra : removeFromLevels i b.asks with
      | some pr =>
          obtain ⟨o, asks'⟩ := pr
          exact ⟨hb, levelsP_remove hra ha (fun k L os _ _ hos => hos)⟩
      | none => exact ⟨hb, ha⟩

theorem nonemptyLevels_modify {b : OrderBook} (h : NonemptyLevels b) (i : Nat)
    (p : ℚ) (q : Nat) : NonemptyLevels (b.modify_order_unlocked i p q) := by
  obtain ⟨hb, ha⟩ := h
  rw [OrderBook.modify_order_unlocked]
  cases hrb : removeFromLevels i b.bids with
  | some pr =>
      obtain ⟨o, bids'⟩ := pr
      exact nonemptyLevels_add (b := { b with bids := bids' })
        ⟨levelsP_remove hrb hb (fun k L os _ _ hos => hos), ha⟩ _
  | none =>
      cases hra : removeFromLevels i b.asks with
      | some pr =>
          obtain ⟨o, asks'⟩ := pr
          exact nonemptyLevels_add (b := { b with asks := asks' })
            ⟨hb, levelsP_remove hra ha (fun k L os _ _ hos => hos)⟩ _
      | none => exact ⟨hb, ha⟩

theorem nonemptyLevels_addLimit {b : OrderBook} (h : NonemptyLevels b)
    (p : ℚ) (q : Nat) (side : OrderSide) :
    NonemptyLevels (b.add_limit_order p q side) := by
  obtain ⟨hb, ha⟩ := h
  rw [OrderBook.add_limit_order]
  by_cases hside : side = OrderSide.BUY
  · rw [if_pos hside]
    exact ⟨levelsP_upsert hb (by simp [pushOrder]) (fun L _ => by simp [pushOrder]), ha⟩
  · rw [if_neg hside]
    exact ⟨hb, levelsP_upsert ha (by simp [pushOrder]) (fun L _ => by simp [pushOrder])⟩

theorem bookReachAny_nonempty {b : OrderBook} (h : BookReachAny b) :
    NonemptyLevels b := by
  induction h with
  | init s => exact ⟨fun kL hkL => absurd hkL (by simp [OrderBook.init]),
      fun kL hkL => absurd hkL (by simp [OrderBook.init])⟩
  | add b o _ ih => exact nonemptyLevels_add ih o
  | cancel b i _ ih => exact nonemptyLevels_cancel ih i
  | modify b i p q _ ih => exact nonemptyLevels_modify ih i p q
  | clear b _ ih =>
      exact ⟨fun kL hkL => absurd hkL (by
          simp [OrderBook.clear_book, update_best_prices_bids]),
        fun kL hkL => absurd hkL (by
          simp [OrderBook.clear_book, update_best_prices_asks])⟩
  | setLast b p _ ih => exact ih
  | addLimit b p q side _ ih => exact nonemptyLevels_addLimit ih p q side

/-- C10: in every book state reachable through the public operations, every
price level present on either side holds at least one order, so the
`orders[0]` accesses `match_orders` and `process_market_order` perform on
the levels returned by `get_bid_levels`/`get_ask_levels` are in bounds. -/
theorem C10_level_heads_in_bounds (b : OrderBook) (h : BookReachAny b)
    (d : Nat) :
    ∀ L ∈ b.get_bid_levels d ++ b.get_ask_levels d, 0 < L.orders.length := by
  obtain ⟨hb, ha⟩ := bookReachAny_nonempty h
  intro L hL
  rcases List.mem_append.mp hL with hL | hL
  · obtain ⟨kL, hkL, rfl⟩ := List.mem_map.mp hL
    exact List.length_pos.mpr (hb kL (List.take_subset d b.bids hkL))
  · obtain ⟨kL, hkL, rfl⟩ := List.mem_map.mp hL
    exact List.length_pos.mpr (ha kL (List.take_subset d b.asks hkL))

/-- C10, witness: the reachable one-order book's single depth-1 level has an
in-bounds head. -/
theorem C10_level_heads_in_bounds_witness : 0 < c10Level.orders.length :=
  C10_level_heads_in_bounds ((OrderBook.init "S").add_order buy150)
    (BookReachAny.add (OrderBook.init "S") buy150 (BookReachAny.init "S")) 1
    c10Level (by
      have h : ((OrderBook.init "S").add_order buy150).get_bid_levels 1 ++
          ((OrderBook.init "S").add_order buy150).get_ask_levels 1 = [c10Level] := rfl
      rw [h]
      exact List.mem_singleton.mpr rfl)

/-! ## C8 -/

/-- `update_best_prices` only reads the two sides and `last_price`; books
agreeing on the map fields agree after the refresh, provided `last_price`
agrees whenever the refresh would keep it. -/
theorem update_best_prices_congr {x y : OrderBook}
    (hsym : x.symbol = y.symbol) (hb : x.bids = y.bids) (ha : x.asks = y.asks)
    (hseq : x.sequence_number = y.sequence_number)
    (hl : ¬ (0 < headKey x.bids ∧ 0 < headKey x.asks) →
      x.last_price = y.last_price) :
    x.update_best_prices = y.update_best_prices := by
  obtain ⟨xs, xb, xa, xl, xbb, xba, xq⟩ := x
  obtain ⟨ys, yb, ya, yl, ybb, yba, yq⟩ := y
  dsimp only at hsym hb ha hseq hl
  subst hsym hb ha hseq
  rw [OrderBook.update_best_prices, OrderBook.update_best_prices]
  by_cases hc : 0 < headKey xb ∧ 0 < headKey xa
  · simp [hc]
  · simp [hc, hl hc]

/-- Refreshing the caches before an `add_order` of a positively-priced order
does not change the result: the only sensitive cache is `last_price`, and
with a positive price the final refresh either overwrites it or the
intermediate refresh could not have touched it. -/
theorem add_order_update_best_prices (c : OrderBook) (o : Order)
    (hp : 0 < o.price) :
    (OrderBook.update_best_prices c).add_order o = c.add_order o := by
  by_cases hside : o.side = OrderSide.BUY
  · rw [add_order_buy hside, add_order_buy hside, update_best_prices_bids,
        update_best_prices_seq]
    refine update_best_prices_congr rfl rfl rfl rfl ?_
    intro hc
    show (OrderBook.update_best_prices c).last_price = c.last_price
    rw [OrderBook.update_best_prices]
    refine if_neg ?_
    intro hboth
    refine hc ⟨?_, hboth.2⟩
    cases hcb : c.bids with
    | nil =>
        rw [hcb, headKey] at hboth
        exact absurd hboth.1 (lt_irrefl 0)
    | cons kv rest =>
        obtain ⟨k', v⟩ := kv
        show 0 < headKey (upsertLevel bidLT o.price _ ((k', v) :: rest))
        rw [headKey_upsert_bid]
        rw [hcb, headKey] at hboth
        exact lt_max_of_lt_right hboth.1
  · rw [add_order_sell hside, add_order_sell hside, update_best_prices_asks,
        update_best_prices_seq]
    refine update_best_prices_congr rfl rfl rfl rfl ?_
    intro hc
    show (OrderBook.update_best_prices c).last_price = c.last_price
    rw [OrderBook.update_best_prices]
    refine if_neg ?_
    intro hboth
    refine hc ⟨hboth.1, ?_⟩
    cases hca : c.asks with
    | nil =>
        rw [hca, headKey] at hboth
        exact absurd hboth.2 (lt_irrefl 0)
    | cons kv rest =>
        obtain ⟨k', v⟩ := kv
        show 0 < headKey (upsertLevel askLT o.price _ ((k', v) :: rest))
        rw [headKey_upsert_ask]
        rw [hca, headKey] at hboth
        exact lt_min hp hboth.2

/-- The hypothetical completed modify body agrees with cancel-then-add for a
positive new price: the only observable it could diverge on is the cached
`last_price` the intermediate refresh of the cancel path may rewrite, and a
positive new price makes the final refresh deterministic.  This supports
modelling the modify generator of the reachability relations by
`modify_order_unlocked`. -/
theorem modify_order_unlocked_is_cancel_add (b : OrderBook) (i : Nat) (p : ℚ)
    (q : Nat) (hp : 0 < p) :
    b.modify_order_unlocked i p q =
      match b.findResting i with
      | some o => (b.cancel_order i).add_order { o with price := p, quantity := q }
      | none => b := by
  rw [OrderBook.modify_order_unlocked, OrderBook.cancel_order,
      OrderBook.findResting]
  cases hrb : removeFromLevels i b.bids with
  | some pr =>
      obtain ⟨o, bids'⟩ := pr
      show OrderBook.add_order { b with bids := bids' } _ =
        OrderBook.add_order
          (OrderBook.update_best_prices { b with bids := bids' }) _
      exact (add_order_update_best_prices _ _ hp).symm
  | none =>
      cases hra : removeFromLevels i b.asks with
      | some pr =>
          obtain ⟨o, asks'⟩ := pr
          show OrderBook.add_order { b with asks := asks' } _ =
            OrderBook.add_order
              (OrderBook.update_best_prices { b with asks := asks' }) _
          exact (add_order_update_best_prices _ _ hp).symm
      | none => rfl

/-- C8: the claimed cancel-then-add equivalence is unobservable, because
`OrderBook::modify_order` never completes on the very inputs the claim
quantifies over.  It holds the non-recursive `book_mutex_` and, exactly when
a resting order with the given id is found, calls `add_order`, whose first
statement locks the same mutex again — the call never returns (modelled as
`none`).  Only the not-found case returns, leaving the book unchanged. -/
theorem C8_modify_found_self_deadlock (b : OrderBook) (i : Nat) (p : ℚ)
    (q : Nat) :
    b.modify_order i p q =
      if (b.findResting i).isSome then none else some b := by
  rw [OrderBook.modify_order, OrderBook.findResting]
  cases hrb : removeFromLevels i b.bids with
  | some pr => obtain ⟨o, bids'⟩ := pr; rfl
  | none =>
      cases hra : removeFromLevels i b.asks with
      | some pr => obtain ⟨o, asks'⟩ := pr; rfl
      | none => rfl

/-- Concrete instances of the self-deadlock on the three-order book `b8`:
modifying resting order 2 never returns, while modifying the absent id 9
returns the book unchanged. -/
theorem b8_modify_instances :
    b8.modify_order 2 7 5 = none ∧ b8.modify_order 9 7 5 = some b8 :=
  ⟨rfl, rfl⟩

end Velocity
